import Mathlib

/-!
Verification of the viola repository's tree-walking / selective-encryption core.

The document tree (Go `any` holding `map[string]any`, `[]any`, and scalars) is
embedded as the inductive `Val`; Go maps are modelled as association lists with
unique keys, Go strings as Lean strings (byte-level operations in the source
act on ASCII data in every behaviour claimed here, where bytes and characters
coincide).  The external collaborators (the age encryption backend, the JSON
interchange codec and the TOML serializer) are abstracted as the fields of an
`Ext` record, exactly as the specification's §6 prescribes; the repository's
own functions (`walk.Walk`, `walk.GetValue`, `viola.Load`, `viola.Save`,
`enc.Encrypt`, `enc.Decrypt`, ...) are translated from the source.  The
walker recurses through values returned by the visitor, which need not be
structurally smaller, so the embedding threads an explicit fuel counter; a
result of `none` models a non-terminating run, which the Go original would
also not complete.
-/

namespace Viola

/-- Document tree: Go `any` restricted to TOML/JSON shapes (part_003 walks
`map[string]any`, `[]any` and scalar leaves).  Floats are not needed by any
claim and are omitted. -/
inductive Val where
  | vStr (s : String)
  | vInt (n : Int)
  | vBool (b : Bool)
  | vNull
  | vMap (es : List (String × Val))
  | vArr (xs : List Val)
deriving Repr

open Val

/-- Model of `walk.IsScalarValue` (part_003 lines 209-226): false for maps and
slices, true otherwise. -/
def IsScalarValue : Val → Bool
  | vMap _ => false
  | vArr _ => false
  | _ => true

def isContainer (v : Val) : Bool := !(IsScalarValue v)

/-- Association-list lookup modelling Go map indexing `m[key]`. -/
def lookupEntry : List (String × Val) → String → Option Val
  | [], _ => none
  | (k, v) :: rest, key => if k = key then some v else lookupEntry rest key

/-- Model of Go `strings.HasPrefix(s, pre)`. -/
def strHasPre (s pre : String) : Bool :=
  pre.toList.isPrefixOf s.toList

/-- Model of Go `strings.Contains(s, sub)`. -/
def strContains (s sub : String) : Bool :=
  s.toList.tails.any fun t => sub.toList.isPrefixOf t

/-- The fixed armor begin marker used by `filippo.io/age/armor`. -/
def beginMarker : String := "-----BEGIN AGE ENCRYPTED FILE-----"

/-- The fixed armor end marker used by `filippo.io/age/armor`. -/
def endMarker : String := "-----END AGE ENCRYPTED FILE-----"

/-- Model of `viola.isArmoredData` (part_001 lines 243-246). -/
def isArmoredData (s : String) : Bool :=
  strContains s beginMarker && strContains s endMarker

/-- The character for a decimal digit value. -/
def digitChar (d : Nat) : Char :=
  match d with
  | 0 => '0' | 1 => '1' | 2 => '2' | 3 => '3' | 4 => '4'
  | 5 => '5' | 6 => '6' | 7 => '7' | 8 => '8' | _ => '9'

/-- Decimal digit characters of `n`, most significant first, prepended to
`acc`; `fuel ≥ n` makes the division loop run to completion. -/
def digitsOfAux (fuel n : Nat) (acc : List Char) : List Char :=
  match fuel with
  | 0 => acc
  | fuel' + 1 =>
    if n = 0 then acc
    else digitsOfAux fuel' (n / 10) (digitChar (n % 10) :: acc)

def digitsOf (n : Nat) : List Char := digitsOfAux n n []

/-- Decimal representation of a natural number (the `%d` rendering). -/
def natRepr (n : Nat) : String :=
  if n = 0 then "0" else String.mk (digitsOf n)

/-- Model of `fmt.Sprintf("[%d]", i)`, the index key used by `walkSlice`
(part_003 line 75). -/
def indexKey (i : Nat) : String := "[" ++ natRepr i ++ "]"

/-- Value of a leading run of decimal digits; `none` when there is none. -/
def digitsVal (cs : List Char) : Option Nat :=
  let ds := cs.takeWhile Char.isDigit
  if ds.isEmpty then none
  else some (ds.foldl (fun a c => a * 10 + (c.toNat - 48)) 0)

/-- Model of `fmt.Sscanf(s, "%d", &index)`: skip leading spaces, optional
sign, then at least one digit; trailing characters are ignored. -/
def sscanfD (s : String) : Option Int :=
  match s.toList.dropWhile (fun c => c = ' ') with
  | [] => none
  | c :: rest =>
    if c = '-' then (digitsVal rest).map fun n => -(n : Int)
    else if c = '+' then (digitsVal rest).map fun n => (n : Int)
    else (digitsVal (c :: rest)).map fun n => (n : Int)

/-- Model of `walk.VisitFunc` (part_003 lines 9-14).  The state `σ` models
whatever mutable collection the Go visitor closes over (`fields` in
`viola.Load`/`viola.Save`). -/
def Visitor (σ : Type) : Type :=
  List String → String → Val → σ → Val × Bool × σ

mutual

/-- Model of `walk.walkValue` (part_003 lines 23-42): visit first, then
descend into the value the visitor returned.  The returned value need not be
smaller than the input, so recursion is metered by `fuel` (decremented at
every recursive step); `none` models a run whose Go original would recurse
beyond the given fuel, in particular a non-terminating run. -/
def walkValue (visit : Visitor σ) (fuel : Nat) (path : List String)
    (key : String) (value : Val) (s : σ) : Option (Val × σ) :=
  match fuel with
  | 0 => none
  | fuel' + 1 =>
    match visit path key value s with
    | (newValue, cont, s1) =>
      if cont then
        match newValue with
        | vMap m => walkMap visit fuel' path key m s1
        | vArr a => walkSlice visit fuel' path key a s1
        | v => some (v, s1)
      else some (newValue, s1)
termination_by structural fuel

/-- Model of `walk.walkMap` (part_003 lines 45-60). -/
def walkMap (visit : Visitor σ) (fuel : Nat) (parentPath : List String)
    (parentKey : String) (m : List (String × Val)) (s : σ) :
    Option (Val × σ) :=
  match fuel with
  | 0 => none
  | fuel' + 1 =>
    match walkEntries visit fuel'
        (if parentKey ≠ "" then parentPath ++ [parentKey] else parentPath)
        m s with
    | some (es, s1) => some (vMap es, s1)
    | none => none
termination_by structural fuel

/-- The entry loop of `walk.walkMap` (part_003 lines 55-58), preserving entry
order (Go maps are unordered key-value collections; the association list is
their canonical ordered model). -/
def walkEntries (visit : Visitor σ) (fuel : Nat) (currentPath : List String)
    (es : List (String × Val)) (s : σ) :
    Option (List (String × Val) × σ) :=
  match fuel with
  | 0 => none
  | fuel' + 1 =>
    match es with
    | [] => some ([], s)
    | (k, v) :: rest =>
      match walkValue visit fuel' currentPath k v s with
      | none => none
      | some (nv, s1) =>
        match walkEntries visit fuel' currentPath rest s1 with
        | none => none
        | some (rest1, s2) => some ((k, nv) :: rest1, s2)
termination_by structural fuel

/-- Model of `walk.walkSlice` (part_003 lines 63-80). -/
def walkSlice (visit : Visitor σ) (fuel : Nat) (parentPath : List String)
    (parentKey : String) (xs : List Val) (s : σ) : Option (Val × σ) :=
  match fuel with
  | 0 => none
  | fuel' + 1 =>
    match walkElems visit fuel'
        (if parentKey ≠ "" then parentPath ++ [parentKey] else parentPath)
        0 xs s with
    | some (ys, s1) => some (vArr ys, s1)
    | none => none
termination_by structural fuel

/-- The element loop of `walk.walkSlice` (part_003 lines 73-78), addressing
element `i` with the key `indexKey i`. -/
def walkElems (visit : Visitor σ) (fuel : Nat) (currentPath : List String)
    (i : Nat) (xs : List Val) (s : σ) : Option (List Val × σ) :=
  match fuel with
  | 0 => none
  | fuel' + 1 =>
    match xs with
    | [] => some ([], s)
    | v :: rest =>
      match walkValue visit fuel' currentPath (indexKey i) v s with
      | none => none
      | some (nv, s1) =>
        match walkElems visit fuel' currentPath (i + 1) rest s1 with
        | none => none
        | some (rest1, s2) => some (nv :: rest1, s2)
termination_by structural fuel

end

/-- Model of `walk.Walk` (part_003 lines 18-20): root call with nil path and
empty key. -/
def Walk (visit : Visitor σ) (fuel : Nat) (data : Val) (s : σ) :
    Option (Val × σ) :=
  walkValue visit fuel [] "" data s

/-- Model of `walk.GetValue` (part_003 lines 125-159).  `none` models the Go
`(nil, false)` result. -/
def GetValue : Val → List String → Option Val
  | data, [] => some data
  | data, key :: rest =>
    match data with
    | vMap es =>
      match lookupEntry es key with
      | some v => GetValue v rest
      | none => none
    | vArr xs =>
      let cs := key.toList
      if cs.length < 3 then none
      else if cs.head? ≠ some '[' then none
      else if cs.getLast? ≠ some ']' then none
      else
        match sscanfD (String.mk (cs.drop 1).dropLast) with
        | none => none
        | some index =>
          if index < 0 then none
          else if (xs.length : Int) ≤ index then none
          else
            match xs.get? index.toNat with
            | some v => GetValue v rest
            | none => none
    | _ => none

mutual

/-- Boolean deep equality on trees (Go `reflect.DeepEqual` on the modelled
shapes). -/
def valBEq (a b : Val) : Bool :=
  match a, b with
  | vStr x, vStr y => x == y
  | vInt x, vInt y => x == y
  | vBool x, vBool y => x == y
  | vNull, vNull => true
  | vMap x, vMap y => entriesBEq x y
  | vArr x, vArr y => elemsBEq x y
  | _, _ => false

def entriesBEq (a b : List (String × Val)) : Bool :=
  match a, b with
  | [], [] => true
  | (k1, v1) :: r1, (k2, v2) :: r2 =>
    k1 == k2 && valBEq v1 v2 && entriesBEq r1 r2
  | _, _ => false

def elemsBEq (a b : List Val) : Bool :=
  match a, b with
  | [], [] => true
  | v1 :: r1, v2 :: r2 => valBEq v1 v2 && elemsBEq r1 r2
  | _, _ => false

end

mutual

theorem valBEq_iff (a b : Val) : valBEq a b = true ↔ a = b := by
  cases a <;> cases b <;>
    simp only [valBEq, beq_iff_eq, vStr.injEq, vInt.injEq, vBool.injEq,
      vMap.injEq, vArr.injEq, Bool.false_eq_true, reduceCtorEq]
  case vMap.vMap x y => exact entriesBEq_iff x y
  case vArr.vArr x y => exact elemsBEq_iff x y

theorem entriesBEq_iff (a b : List (String × Val)) :
    entriesBEq a b = true ↔ a = b := by
  match a, b with
  | [], [] => simp [entriesBEq]
  | [], _ :: _ => simp [entriesBEq]
  | _ :: _, [] => simp [entriesBEq]
  | (k1, v1) :: r1, (k2, v2) :: r2 =>
    simp only [entriesBEq, Bool.and_eq_true, beq_iff_eq, List.cons.injEq,
      Prod.mk.injEq]
    rw [valBEq_iff v1 v2, entriesBEq_iff r1 r2]

theorem elemsBEq_iff (a b : List Val) : elemsBEq a b = true ↔ a = b := by
  match a, b with
  | [], [] => simp [elemsBEq]
  | [], _ :: _ => simp [elemsBEq]
  | _ :: _, [] => simp [elemsBEq]
  | v1 :: r1, v2 :: r2 =>
    simp only [elemsBEq, Bool.and_eq_true, List.cons.injEq]
    rw [valBEq_iff v1 v2, elemsBEq_iff r1 r2]

end

instance : DecidableEq Val := fun a b =>
  decidable_of_iff (valBEq a b = true) (valBEq_iff a b)

/-! ### The encryption backend (pkg/enc, part_000)

The age library itself is external; `Ext` packages the black-box collaborator
functions the specification's §6 names: `seal`/`open` for the encryption
backend, the interchange codec `encode`/`decode` (Go `json.Marshal` /
`json.Unmarshal`), and the document serializer (`toml` encode).  `none`
models a returned error. -/

/-- An age recipient handle: an X25519 public key or a passphrase-derived
(scrypt) recipient. -/
inductive Recipient where
  | x25519 (s : String)
  | scrypt (pass : String)
deriving Repr, DecidableEq

/-- An age identity handle: an X25519 private key or a passphrase-derived
(scrypt) identity. -/
inductive Identity where
  | x25519 (s : String)
  | scrypt (pass : String)
deriving Repr, DecidableEq

/-- The external collaborators, per §6 of the specification. -/
structure Ext where
  ageSeal : String → List Recipient → Option String
  ageOpen : String → List Identity → Option String
  jsonMarshal : Val → Option String
  jsonUnmarshal : String → Option Val
  tomlMarshal : Val → Option String

/-- Model of `enc.Encrypt` (part_000 lines 111-137): hard error on zero
recipients, otherwise the sealed armored text (any backend failure is an
error). -/
def Encrypt (E : Ext) (data : String) (recipients : List Recipient) :
    Except String String :=
  if recipients.length = 0 then .error "no recipients provided"
  else
    match E.ageSeal data recipients with
    | some armored => .ok armored
    | none => .error "failed to encrypt"

/-- Model of `enc.Decrypt` (part_000 lines 140-152): hard error on zero
identities, otherwise the opened plaintext bytes (failure to open is an
error). -/
def Decrypt (E : Ext) (armoredData : String) (identities : List Identity) :
    Except String String :=
  if identities.length = 0 then .error "no identities provided"
  else
    match E.ageOpen armoredData identities with
    | some d => .ok d
    | none => .error "failed to decrypt"

/-- Model of `enc.GetRecipientStrings` (part_000 lines 155-168). -/
def GetRecipientStrings (recipients : List Recipient) : List String :=
  recipients.map fun r =>
    match r with
    | .x25519 s => s
    | .scrypt _ => "passphrase"

/-- Model of `enc.HasPassphraseRecipient` (part_000 lines 171-178). -/
def HasPassphraseRecipient (recipients : List Recipient) : Bool :=
  recipients.any fun r =>
    match r with
    | .scrypt _ => true
    | _ => false

/-! ### The viola package (part_001)

`Load` and `Save` are modelled after the identity/recipient loading step:
the Go functions obtain them from `Options.Keys` (file and string sources,
which are I/O); here the result of `KeySources.LoadIdentities` /
`KeySources.LoadRecipients` is passed in directly as an `Except`, and the
TOML parse result of the input bytes is passed as an `Option Val`.  The
outer `Option` of the result models the fuel-metered walk: `none` is a walk
that did not complete within the given fuel (the Go code has no such bound
and would simply keep running). -/

/-- Model of `viola.Options` (part_001 lines 16-34) restricted to the fields
the core consults; `Keys` is replaced by the explicitly passed key-loading
results, and the QR-code cosmetics do not influence any claim. -/
structure Options where
  ShouldEncrypt : Option (List String → String → Val → Bool)
  PrivatePrefix : String

/-- Model of `Options.setDefaults` (part_001 lines 37-49). -/
def setDefaults (o : Options) : Options :=
  { o with
    PrivatePrefix := if o.PrivatePrefix = "" then "private_"
                     else o.PrivatePrefix }

/-- Model of `Options.shouldEncryptField` (part_001 lines 52-57). -/
def shouldEncryptField (o : Options) (path : List String) (key : String)
    (value : Val) : Bool :=
  match o.ShouldEncrypt with
  | some f => f path key value
  | none => strHasPre key o.PrivatePrefix

/-- Model of `viola.FieldMeta` (part_001 lines 60-78). -/
structure FieldMeta where
  Path : List String
  WasEncrypted : Bool
  Armored : String
  ASCIIQR : String
  UsedRecipients : List String
  UsedPassphrase : Bool
deriving Repr, DecidableEq

/-- Model of `viola.Result` (part_001 lines 81-87). -/
structure Result where
  Tree : Val
  Fields : List FieldMeta
deriving Repr, DecidableEq

/-- The visitor closure of `viola.Load` (part_001 lines 108-141); the state
is the `fields` slice it appends to. -/
def loadVisit (E : Ext) (identities : List Identity) :
    Visitor (List FieldMeta) :=
  fun path key value fields =>
    match value with
    | vStr strValue =>
      if isArmoredData strValue then
        match Decrypt E strValue identities with
        | .error _ =>
          (value, true,
            fields ++ [⟨path ++ [key], true, strValue, "", [], false⟩])
        | .ok decrypted =>
          let jsonValue :=
            match E.jsonUnmarshal decrypted with
            | some v => v
            | none => vStr decrypted
          (jsonValue, true,
            fields ++ [⟨path ++ [key], true, strValue, "", [], false⟩])
      else (value, true, fields)
    | _ => (value, true, fields)

/-- Model of `viola.Load` (part_001 lines 90-147).  `parsed` is the result
of the external `toml.Unmarshal` on the input bytes; `idsLoaded` the result
of `opts.Keys.LoadIdentities()`. -/
def Load (E : Ext) (parsed : Option Val)
    (idsLoaded : Except String (List Identity)) (fuel : Nat) :
    Option (Except String Result) :=
  match parsed with
  | none => some (.error "failed to parse TOML")
  | some tree =>
    match idsLoaded with
    | .error e => some (.error ("failed to load identities: " ++ e))
    | .ok identities =>
      match Walk (loadVisit E identities) fuel tree [] with
      | none => none
      | some (decryptedTree, fields) => some (.ok ⟨decryptedTree, fields⟩)

/-- The visitor closure of `viola.Save` (part_001 lines 166-214); the state
is the `fields` slice it appends to. -/
def saveVisit (E : Ext) (opts : Options) (recipients : List Recipient) :
    Visitor (List FieldMeta) :=
  fun path key value fields =>
    if shouldEncryptField opts path key value then
      match value with
      | vStr strValue =>
        if isArmoredData strValue then
          (value, true,
            fields ++ [⟨path ++ [key], true, strValue, "",
              GetRecipientStrings recipients,
              HasPassphraseRecipient recipients⟩])
        else
          match Encrypt E strValue recipients with
          | .error _ => (value, true, fields)
          | .ok encrypted =>
            (vStr encrypted, true,
              fields ++ [⟨path ++ [key], true, encrypted, "",
                GetRecipientStrings recipients,
                HasPassphraseRecipient recipients⟩])
      | _ =>
        match E.jsonMarshal value with
        | none => (value, true, fields)
        | some jsonData =>
          match Encrypt E jsonData recipients with
          | .error _ => (value, true, fields)
          | .ok encrypted =>
            (vStr encrypted, true,
              fields ++ [⟨path ++ [key], true, encrypted, "",
                GetRecipientStrings recipients,
                HasPassphraseRecipient recipients⟩])
    else (value, true, fields)

/-- Model of `viola.Save` (part_001 lines 150-223).  `rsLoaded` is the result
of `opts.Keys.LoadRecipients()`; on success the returned pair is the
serialized TOML bytes and the field records. -/
def Save (E : Ext) (tree : Val) (opts0 : Options)
    (rsLoaded : Except String (List Recipient)) (fuel : Nat) :
    Option (Except String (String × List FieldMeta)) :=
  let _opts := setDefaults opts0
  match rsLoaded with
  | .error e => some (.error ("failed to load recipients: " ++ e))
  | .ok recipients =>
    if recipients.length = 0 then
      some (.error "no recipients available for encryption")
    else
      match Walk (saveVisit E (setDefaults opts0) recipients) fuel tree [] with
      | none => none
      | some (encryptedTree, fields) =>
        match E.tomlMarshal encryptedTree with
        | none => some (.error "failed to marshal TOML")
        | some tomlData => some (.ok (tomlData, fields))

/-! ### Specification-side observers and predicates

These definitions follow the specification's vocabulary (visit log, shape,
string-only trees, leaf collections) and are used to state the claims; they
are deliberately independent of the walker's fueled state-threading. -/

/-- The canonical observing visitor: keeps every value, always continues,
and logs each `(path, key, value)` visit. -/
def recordVisit : Visitor (List (List String × String × Val)) :=
  fun path key v s => (v, true, s ++ [(path, key, v)])

mutual

/-- The visit log the specification's walker contract describes: the node
itself first, then its children depth-first, a child's path being built by
appending the parent's non-empty key. -/
def visits (path : List String) (key : String) (v : Val) :
    List (List String × String × Val) :=
  (path, key, v) ::
    (match v with
     | vMap es => visitsEntries (if key ≠ "" then path ++ [key] else path) es
     | vArr xs => visitsElems (if key ≠ "" then path ++ [key] else path) 0 xs
     | _ => [])

def visitsEntries (cp : List String) (es : List (String × Val)) :
    List (List String × String × Val) :=
  match es with
  | [] => []
  | (k, v) :: rest => visits cp k v ++ visitsEntries cp rest

def visitsElems (cp : List String) (i : Nat) (xs : List Val) :
    List (List String × String × Val) :=
  match xs with
  | [] => []
  | v :: rest => visits cp (indexKey i) v ++ visitsElems cp (i + 1) rest

end

mutual

/-- Same map-key sequences and sequence lengths at every position; scalar
leaves may differ arbitrarily (the specification's I1 shape relation). -/
def sameShape (a b : Val) : Bool :=
  match a, b with
  | vMap x, vMap y => sameShapeEntries x y
  | vArr x, vArr y => sameShapeElems x y
  | vMap _, _ => false
  | _, vMap _ => false
  | vArr _, _ => false
  | _, vArr _ => false
  | _, _ => true

def sameShapeEntries (a b : List (String × Val)) : Bool :=
  match a, b with
  | [], [] => true
  | (k1, v1) :: r1, (k2, v2) :: r2 =>
    k1 == k2 && sameShape v1 v2 && sameShapeEntries r1 r2
  | _, _ => false

def sameShapeElems (a b : List Val) : Bool :=
  match a, b with
  | [], [] => true
  | v1 :: r1, v2 :: r2 => sameShape v1 v2 && sameShapeElems r1 r2
  | _, _ => false

end

mutual

/-- A tree containing only strings and nested maps/sequences of strings. -/
def StringOnly : Val → Bool
  | vStr _ => true
  | vInt _ => false
  | vBool _ => false
  | vNull => false
  | vMap es => StringOnlyEntries es
  | vArr xs => StringOnlyElems xs

def StringOnlyEntries : List (String × Val) → Bool
  | [] => true
  | (_, v) :: rest => StringOnly v && StringOnlyEntries rest

def StringOnlyElems : List Val → Bool
  | [] => true
  | v :: rest => StringOnly v && StringOnlyElems rest

end

mutual

/-- All string leaves of a tree, in visit order. -/
def strLeaves : Val → List String
  | vStr s => [s]
  | vInt _ => []
  | vBool _ => []
  | vNull => []
  | vMap es => strLeavesEntries es
  | vArr xs => strLeavesElems xs

def strLeavesEntries : List (String × Val) → List String
  | [] => []
  | (_, v) :: rest => strLeaves v ++ strLeavesEntries rest

def strLeavesElems : List Val → List String
  | [] => []
  | v :: rest => strLeaves v ++ strLeavesElems rest

end

mutual

/-- No map key anywhere in the tree is the empty string. -/
def noEmptyKeys : Val → Bool
  | vMap es => noEmptyKeysEntries es
  | vArr xs => noEmptyKeysElems xs
  | _ => true

def noEmptyKeysEntries : List (String × Val) → Bool
  | [] => true
  | (k, v) :: rest => !(k == "") && noEmptyKeys v && noEmptyKeysEntries rest

def noEmptyKeysElems : List Val → Bool
  | [] => true
  | v :: rest => noEmptyKeys v && noEmptyKeysElems rest

end

/-- The key `k` does not occur among the keys of `es`. -/
def keyFresh (k : String) (es : List (String × Val)) : Bool :=
  !(es.any fun e => e.1 == k)

mutual

/-- Every map in the tree has pairwise distinct keys (the invariant Go maps
guarantee; association lists are their model). -/
def mapKeysUnique : Val → Bool
  | vMap es => mapKeysUniqueEntries es
  | vArr xs => mapKeysUniqueElems xs
  | _ => true

def mapKeysUniqueEntries : List (String × Val) → Bool
  | [] => true
  | (k, v) :: rest =>
    keyFresh k rest && mapKeysUnique v && mapKeysUniqueEntries rest

def mapKeysUniqueElems : List Val → Bool
  | [] => true
  | v :: rest => mapKeysUnique v && mapKeysUniqueElems rest

end

mutual

/-- Fuel sufficient for one fueled walk of `v` when the visitor only ever
substitutes scalars (or keeps the value): the maximal call depth of the
walker's recursion. -/
def fuelV : Val → Nat
  | vMap es => 2 + fuelEntries es
  | vArr xs => 2 + fuelElems xs
  | _ => 1

def fuelEntries : List (String × Val) → Nat
  | [] => 1
  | (_, v) :: rest => 1 + max (fuelV v) (fuelEntries rest)

def fuelElems : List Val → Nat
  | [] => 1
  | v :: rest => 1 + max (fuelV v) (fuelElems rest)

end

/-- The pattern `pat` occurs in `s` starting at character position `i`. -/
def occursAtB (pat s : String) (i : Nat) : Bool :=
  pat.toList.isPrefixOf (s.toList.drop i)

/-- Some occurrence of `p` in `s` starts strictly before some occurrence of
`q` (the "begin-marker before end-marker" reading of the claim). -/
def occursBefore (p q s : String) : Bool :=
  (List.range (s.toList.length + 1)).any fun i =>
    occursAtB p s i &&
      (List.range (s.toList.length + 1)).any fun j =>
        decide (i < j) && occursAtB q s j

/-! ### Concrete instances used by witnesses and counterexamples -/

/-- A backend whose every external call fails. -/
def extNone : Ext :=
  ⟨fun _ _ => none, fun _ _ => none, fun _ => none, fun _ => none,
   fun _ => none⟩

/-- A concrete armored text. -/
def armored0 : String := beginMarker ++ "\nX\n" ++ endMarker

/-- The default options (empty prefix, no custom predicate). -/
def optsDefault : Options := ⟨none, ""⟩

/-- A scalar-only policy used by the C3 witness. -/
def optsScalarOnly : Options :=
  ⟨some (fun _ k v => IsScalarValue v && strHasPre k "private_"), ""⟩

/-- A backend that seals by wrapping the payload in the armor markers and
encodes any value as the literal "J". -/
def extWrapJ : Ext :=
  ⟨fun d _ => some (beginMarker ++ "\n" ++ d ++ "\n" ++ endMarker),
   fun _ _ => none, fun _ => some "J", fun _ => none, fun _ => none⟩

/-- The armored text produced by the wrapping backend for the payload "J". -/
def wrapJ : String := beginMarker ++ "\n" ++ "J" ++ "\n" ++ endMarker

/-- A backend that encodes but cannot seal, and serializes TOML. -/
def extMarshalOnly : Ext :=
  ⟨fun _ _ => none, fun _ _ => none, fun _ => some "J", fun _ => none,
   fun _ => some "T"⟩

/-- The "identities can open what was sealed to these recipients, and
plaintext leaves are inert" contract for one string leaf: an armored-looking
plaintext does not open, the leaf does not parse under the interchange
codec, and a sealing of the leaf produces armored text that opens back to
it. -/
def LeafOK (E : Ext) (rs : List Recipient) (ids : List Identity)
    (t : String) : Prop :=
  (isArmoredData t = true → E.ageOpen t ids = none) ∧
  E.jsonUnmarshal t = none ∧
  (∀ c, E.ageSeal t rs = some c →
    isArmoredData c = true ∧ E.ageOpen c ids = some t)

/-- The interchange-codec / backend contract for sealed containers: an
encoding of a string-only value decodes back to it, and its sealing
produces armored text that opens back to the encoding. -/
def ContOK (E : Ext) (rs : List Recipient) (ids : List Identity) : Prop :=
  ∀ u, StringOnly u = true → ∀ j, E.jsonMarshal u = some j →
    E.jsonUnmarshal j = some u ∧
    (∀ c, E.ageSeal j rs = some c →
      isArmoredData c = true ∧ E.ageOpen c ids = some j)

/-- A toy unarmoring: strip the begin marker line and the end marker line,
returning the payload between them. -/
def unwrapToy (a : String) : Option String :=
  let b := (beginMarker ++ "\n").toList
  let e := ("\n" ++ endMarker).toList
  if b.isPrefixOf a.toList && e.isSuffixOf a.toList &&
      decide (b.length + e.length ≤ a.toList.length)
  then some (String.mk ((a.toList.drop b.length).take
    (a.toList.length - b.length - e.length)))
  else none

/-- A backend for the C1 witness: seal wraps the payload in the armor
markers, open unwraps it, and nothing JSON-parses. -/
def extRound : Ext :=
  ⟨fun d _ => some (beginMarker ++ "\n" ++ d ++ "\n" ++ endMarker),
   fun a _ => unwrapToy a, fun _ => none, fun _ => none, fun _ => some "T"⟩

/-- The fixed armored text used by the C1 counterexample. -/
def wrap42 : String := beginMarker ++ "\n42\n" ++ endMarker

/-- A backend for the C1 counterexample: it seals the payload "42" and
opens it back, and its interchange codec decodes "42" to the integer 42 —
exactly as the real interchange codec does. -/
def extJson42 : Ext :=
  ⟨fun d _ => if d = "42" then some wrap42 else none,
   fun a _ => if a = wrap42 then some "42" else none,
   fun _ => none,
   fun d => if d = "42" then some (vInt 42) else none,
   fun _ => none⟩

/-! ### Claims -/

/-- Containment in the sense of `strings.Contains` holds exactly when the
pattern occurs as a contiguous substring. -/
theorem strContains_iff (s sub : String) :
    strContains s sub = true ↔ ∃ a b : String, s = a ++ sub ++ b := by
  unfold strContains
  rw [List.any_eq_true]
  constructor
  · rintro ⟨t, ht, hp⟩
    rw [List.mem_tails] at ht
    rw [List.isPrefixOf_iff_prefix] at hp
    have hinf : sub.toList <:+: s.toList :=
      List.infix_iff_prefix_suffix.mpr ⟨t, hp, ht⟩
    obtain ⟨a, b, hab⟩ := hinf
    refine ⟨⟨a⟩, ⟨b⟩, ?_⟩
    cases s with
    | mk data =>
      simp only [String.toList] at hab
      rw [← hab]
      rfl
  · rintro ⟨a, b, rfl⟩
    refine ⟨sub.toList ++ b.toList, ?_, ?_⟩
    · rw [List.mem_tails]
      exact ⟨a.toList, by simp [String.toList, String.append]⟩
    · rw [List.isPrefixOf_iff_prefix]
      exact ⟨b.toList, rfl⟩

/-- Claim C2, counterexample: the string formed by the end marker followed
by the begin marker is recognized as already-encrypted by `isArmoredData`,
although no occurrence of the begin marker precedes an occurrence of the
end marker — the detection heuristic checks no ordering. -/
theorem c2_counterexample :
    isArmoredData (endMarker ++ beginMarker) = true ∧
    occursBefore beginMarker endMarker (endMarker ++ beginMarker) = false := by
  constructor
  · decide
  · decide

/-- Claim C2 as amended: a leaf value is recognized as already-encrypted by
the detection heuristic if and only if it is a string containing the fixed
begin-marker substring and the fixed end-marker substring, in either
order. -/
theorem c2_detection_amended (s : String) :
    isArmoredData s = true ↔
      ((∃ a b, s = a ++ beginMarker ++ b) ∧
       (∃ a b, s = a ++ endMarker ++ b)) := by
  unfold isArmoredData
  rw [Bool.and_eq_true, strContains_iff, strContains_iff]

/-- Claim C7: for every tree and every policy, `Save` called with an empty
recipient list returns the zero-recipient error and produces no output
tree. -/
theorem c7_zero_recipient_rejection (E : Ext) (tree : Val) (opts : Options)
    (fuel : Nat) :
    Save E tree opts (.ok []) fuel =
      some (.error "no recipients available for encryption") := by
  simp [Save]

/-- Claim C6: when the field policy matches a leaf already recognized as
ciphertext, the save pass leaves the armored text byte-identical and still
emits a field record carrying `WasEncrypted = true`, the existing armored
text, and the current call's recipient/passphrase metadata. -/
theorem c6_skip_reencrypt (E : Ext) (opts : Options) (rs : List Recipient)
    (path : List String) (key s : String) (fields : List FieldMeta)
    (fuel : Nat)
    (hpol : shouldEncryptField opts path key (vStr s) = true)
    (harm : isArmoredData s = true) :
    walkValue (saveVisit E opts rs) (fuel + 1) path key (vStr s) fields =
      some (vStr s, fields ++ [⟨path ++ [key], true, s, "",
        GetRecipientStrings rs, HasPassphraseRecipient rs⟩]) := by
  simp [walkValue, saveVisit, hpol, harm]

/-- Witness for C6 at a concrete armored leaf under a `private_` key. -/
theorem c6_skip_reencrypt_witness :
    walkValue (saveVisit extNone (setDefaults optsDefault)
        [Recipient.x25519 "age1r"]) 1 [] "private_x" (vStr armored0) [] =
      some (vStr armored0, [⟨["private_x"], true, armored0, "",
        ["age1r"], false⟩]) :=
  c6_skip_reencrypt extNone (setDefaults optsDefault)
    [Recipient.x25519 "age1r"] [] "private_x" armored0 [] 0
    (by decide) (by decide)

/-- Claim C4: a leaf recognized as ciphertext that the supplied identities
cannot decrypt is left unchanged by the load pass, a field record with
`WasEncrypted = true` is still emitted for it, and `Load` as a whole
returns successfully whenever its walk completes. -/
theorem c4_graceful_degradation (E : Ext) (ids : List Identity) :
    (∀ path key s fields fuel e,
      isArmoredData s = true → Decrypt E s ids = .error e →
      walkValue (loadVisit E ids) (fuel + 1) path key (vStr s) fields =
        some (vStr s, fields ++ [⟨path ++ [key], true, s, "", [], false⟩]))
    ∧ (∀ t fuel out fs,
      Walk (loadVisit E ids) fuel t [] = some (out, fs) →
      Load E (some t) (.ok ids) fuel = some (.ok ⟨out, fs⟩)) := by
  constructor
  · intro path key s fields fuel e harm hdec
    simp [walkValue, loadVisit, harm, hdec]
  · intro t fuel out fs hw
    simp [Load, hw]

/-- Witness for C4: the all-failing backend cannot decrypt the armored
leaf; the walk leaves it unchanged yet records it, and `Load` succeeds. -/
theorem c4_graceful_degradation_witness :
    walkValue (loadVisit extNone [Identity.x25519 "i"]) 1 [] "k"
        (vStr armored0) [] =
      some (vStr armored0, [⟨["k"], true, armored0, "", [], false⟩]) ∧
    Load extNone (some (vStr "z")) (.ok [Identity.x25519 "i"]) 1 =
      some (.ok ⟨vStr "z", []⟩) :=
  ⟨(c4_graceful_degradation extNone [Identity.x25519 "i"]).1 [] "k"
      armored0 [] 0 "failed to decrypt" (by decide) rfl,
   (c4_graceful_degradation extNone [Identity.x25519 "i"]).2 (vStr "z") 1
      (vStr "z") [] (by decide)⟩

/-- Claim C8: when encoding or sealing fails for a policy-matching scalar
leaf, the save pass leaves that leaf unchanged and emits no field record
for it, and `Save` as a whole still succeeds (given its walk completes and
the external serializer accepts the result). -/
theorem c8_seal_failure_fallback (E : Ext) (opts : Options)
    (rs : List Recipient) :
    (∀ path key s fields fuel e,
      shouldEncryptField opts path key (vStr s) = true →
      isArmoredData s = false → Encrypt E s rs = .error e →
      walkValue (saveVisit E opts rs) (fuel + 1) path key (vStr s) fields =
        some (vStr s, fields))
    ∧ (∀ path key v fields fuel,
      shouldEncryptField opts path key v = true →
      IsScalarValue v = true → (∀ s, v ≠ vStr s) →
      E.jsonMarshal v = none →
      walkValue (saveVisit E opts rs) (fuel + 1) path key v fields =
        some (v, fields))
    ∧ (∀ path key v fields fuel j e,
      shouldEncryptField opts path key v = true →
      IsScalarValue v = true → (∀ s, v ≠ vStr s) →
      E.jsonMarshal v = some j → Encrypt E j rs = .error e →
      walkValue (saveVisit E opts rs) (fuel + 1) path key v fields =
        some (v, fields))
    ∧ (∀ tree fuel t1 fs d, rs.length ≠ 0 →
      Walk (saveVisit E (setDefaults opts) rs) fuel tree [] = some (t1, fs) →
      E.tomlMarshal t1 = some d →
      Save E tree opts (.ok rs) fuel = some (.ok (d, fs))) := by
  refine ⟨?_, ?_, ?_, ?_⟩
  · intro path key s fields fuel e hpol harm henc
    simp [walkValue, saveVisit, hpol, harm, henc]
  · intro path key v fields fuel hpol hsc hne hmj
    cases v with
    | vStr s => exact absurd rfl (hne s)
    | vMap es => simp [IsScalarValue] at hsc
    | vArr xs => simp [IsScalarValue] at hsc
    | vInt n => simp [walkValue, saveVisit, hpol, hmj]
    | vBool b => simp [walkValue, saveVisit, hpol, hmj]
    | vNull => simp [walkValue, saveVisit, hpol, hmj]
  · intro path key v fields fuel j e hpol hsc hne hmj henc
    cases v with
    | vStr s => exact absurd rfl (hne s)
    | vMap es => simp [IsScalarValue] at hsc
    | vArr xs => simp [IsScalarValue] at hsc
    | vInt n => simp [walkValue, saveVisit, hpol, hmj, henc]
    | vBool b => simp [walkValue, saveVisit, hpol, hmj, henc]
    | vNull => simp [walkValue, saveVisit, hpol, hmj, henc]
  · intro tree fuel t1 fs d hrs hw hm
    simp [Save, hrs, hw, hm]

/-- When every armored string leaf of the subtree fails to decrypt, the
load visitor's walk rebuilds the subtree unchanged (stated for all five
walker functions simultaneously, by induction on fuel). -/
theorem load_keep_failed (E : Ext) (ids : List Identity) : ∀ fuel : Nat,
    (∀ p k v s out s1,
      (∀ t, t ∈ strLeaves v → isArmoredData t = true →
        ∀ d, Decrypt E t ids ≠ .ok d) →
      walkValue (loadVisit E ids) fuel p k v s = some (out, s1) → out = v) ∧
    (∀ pp pk es s out s1,
      (∀ t, t ∈ strLeavesEntries es → isArmoredData t = true →
        ∀ d, Decrypt E t ids ≠ .ok d) →
      walkMap (loadVisit E ids) fuel pp pk es s = some (out, s1) →
      out = vMap es) ∧
    (∀ cp es s out s1,
      (∀ t, t ∈ strLeavesEntries es → isArmoredData t = true →
        ∀ d, Decrypt E t ids ≠ .ok d) →
      walkEntries (loadVisit E ids) fuel cp es s = some (out, s1) →
      out = es) ∧
    (∀ pp pk xs s out s1,
      (∀ t, t ∈ strLeavesElems xs → isArmoredData t = true →
        ∀ d, Decrypt E t ids ≠ .ok d) →
      walkSlice (loadVisit E ids) fuel pp pk xs s = some (out, s1) →
      out = vArr xs) ∧
    (∀ cp i xs s out s1,
      (∀ t, t ∈ strLeavesElems xs → isArmoredData t = true →
        ∀ d, Decrypt E t ids ≠ .ok d) →
      walkElems (loadVisit E ids) fuel cp i xs s = some (out, s1) →
      out = xs) := by
  intro fuel
  induction fuel with
  | zero =>
    refine ⟨?_, ?_, ?_, ?_, ?_⟩
    · intro p k v s out s1 _ h; simp [walkValue] at h
    · intro pp pk es s out s1 _ h; simp [walkMap] at h
    · intro cp es s out s1 _ h; simp [walkEntries] at h
    · intro pp pk xs s out s1 _ h; simp [walkSlice] at h
    · intro cp i xs s out s1 _ h; simp [walkElems] at h
  | succ fuel ih =>
    obtain ⟨ihV, ihM, ihE, ihS, ihL⟩ := ih
    refine ⟨?_, ?_, ?_, ?_, ?_⟩
    · intro p k v s out s1 hfail h
      cases v with
      | vStr t =>
        by_cases harm : isArmoredData t = true
        · cases hd : Decrypt E t ids with
          | error e =>
            simp [walkValue, loadVisit, harm, hd] at h
            exact h.1.symm
          | ok d =>
            exact absurd hd (hfail t (by simp [strLeaves]) harm d)
        · simp only [Bool.not_eq_true] at harm
          simp [walkValue, loadVisit, harm] at h
          exact h.1.symm
      | vInt n => simp [walkValue, loadVisit] at h; exact h.1.symm
      | vBool b => simp [walkValue, loadVisit] at h; exact h.1.symm
      | vNull => simp [walkValue, loadVisit] at h; exact h.1.symm
      | vMap es =>
        simp only [walkValue, loadVisit] at h
        exact ihM p k es s out s1 (by simpa [strLeaves] using hfail) h
      | vArr xs =>
        simp only [walkValue, loadVisit] at h
        exact ihS p k xs s out s1 (by simpa [strLeaves] using hfail) h
    · intro pp pk es s out s1 hfail h
      simp only [walkMap] at h
      cases hw : walkEntries (loadVisit E ids) fuel
          (if pk ≠ "" then pp ++ [pk] else pp) es s with
      | none => rw [hw] at h; simp at h
      | some r =>
        obtain ⟨es1, s2⟩ := r
        rw [hw] at h
        simp at h
        rw [← h.1, ihE _ es s es1 s2 hfail hw]
    · intro cp es s out s1 hfail h
      cases es with
      | nil => simp [walkEntries] at h; exact h.1
      | cons e rest =>
        obtain ⟨k, v⟩ := e
        simp only [walkEntries] at h
        cases hv : walkValue (loadVisit E ids) fuel cp k v s with
        | none => rw [hv] at h; simp at h
        | some r1 =>
          obtain ⟨nv, s2⟩ := r1
          rw [hv] at h
          simp only [] at h
          cases hr : walkEntries (loadVisit E ids) fuel cp rest s2 with
          | none => rw [hr] at h; simp at h
          | some r2 =>
            obtain ⟨rest1, s3⟩ := r2
            rw [hr] at h
            simp at h
            have h1 : nv = v := ihV cp k v s nv s2
              (fun t ht => hfail t (by simp [strLeavesEntries, ht])) hv
            have h2 : rest1 = rest := ihE cp rest s2 rest1 s3
              (fun t ht harm => hfail t
                (by simp [strLeavesEntries]; right; exact ht) harm) hr
            rw [← h.1, h1, h2]
    · intro pp pk xs s out s1 hfail h
      simp only [walkSlice] at h
      cases hw : walkElems (loadVisit E ids) fuel
          (if pk ≠ "" then pp ++ [pk] else pp) 0 xs s with
      | none => rw [hw] at h; simp at h
      | some r =>
        obtain ⟨ys, s2⟩ := r
        rw [hw] at h
        simp at h
        rw [← h.1, ihL _ 0 xs s ys s2 hfail hw]
    · intro cp i xs s out s1 hfail h
      cases xs with
      | nil => simp [walkElems] at h; exact h.1
      | cons v rest =>
        simp only [walkElems] at h
        cases hv : walkValue (loadVisit E ids) fuel cp (indexKey i) v s with
        | none => rw [hv] at h; simp at h
        | some r1 =>
          obtain ⟨nv, s2⟩ := r1
          rw [hv] at h
          simp only [] at h
          cases hr : walkElems (loadVisit E ids) fuel cp (i + 1) rest s2 with
          | none => rw [hr] at h; simp at h
          | some r2 =>
            obtain ⟨rest1, s3⟩ := r2
            rw [hr] at h
            simp at h
            have h1 : nv = v := ihV cp (indexKey i) v s nv s2
              (fun t ht => hfail t (by simp [strLeavesElems, ht])) hv
            have h2 : rest1 = rest := ihL cp (i + 1) rest s2 rest1 s3
              (fun t ht harm => hfail t
                (by simp [strLeavesElems]; right; exact ht) harm) hr
            rw [← h.1, h1, h2]

theorem fuelV_pos (v : Val) : 1 ≤ fuelV v := by
  cases v <;> simp [fuelV] <;> omega

theorem fuelEntries_pos (es : List (String × Val)) : 1 ≤ fuelEntries es := by
  cases es with
  | nil => simp [fuelEntries]
  | cons e rest => simp [fuelEntries]

theorem fuelElems_pos (xs : List Val) : 1 ≤ fuelElems xs := by
  cases xs with
  | nil => simp [fuelElems]
  | cons v rest => simp [fuelElems]

/-- A walk completes within `fuelV` fuel whenever the visitor always
continues and only ever substitutes a scalar (or keeps the value) — the
situation of both `Load` with no usable identity and every `Save`. -/
theorem walk_completes (visit : Visitor σ)
    (hv : ∀ p k v s, (visit p k v s).2.1 = true ∧
      ((visit p k v s).1 = v ∨ IsScalarValue (visit p k v s).1 = true)) :
    ∀ fuel : Nat,
    (∀ p k v s, fuelV v ≤ fuel →
      ∃ r, walkValue visit fuel p k v s = some r) ∧
    (∀ pp pk es s, 1 + fuelEntries es ≤ fuel →
      ∃ r, walkMap visit fuel pp pk es s = some r) ∧
    (∀ cp es s, fuelEntries es ≤ fuel →
      ∃ r, walkEntries visit fuel cp es s = some r) ∧
    (∀ pp pk xs s, 1 + fuelElems xs ≤ fuel →
      ∃ r, walkSlice visit fuel pp pk xs s = some r) ∧
    (∀ cp i xs s, fuelElems xs ≤ fuel →
      ∃ r, walkElems visit fuel cp i xs s = some r) := by
  intro fuel
  induction fuel with
  | zero =>
    refine ⟨?_, ?_, ?_, ?_, ?_⟩
    · intro p k v s hb; have := fuelV_pos v; omega
    · intro pp pk es s hb; have := fuelEntries_pos es; omega
    · intro cp es s hb; have := fuelEntries_pos es; omega
    · intro pp pk xs s hb; have := fuelElems_pos xs; omega
    · intro cp i xs s hb; have := fuelElems_pos xs; omega
  | succ fuel ih =>
    obtain ⟨ihV, ihM, ihE, ihS, ihL⟩ := ih
    refine ⟨?_, ?_, ?_, ?_, ?_⟩
    · intro p k v s hb
      obtain ⟨hc, hsub⟩ := hv p k v s
      rcases hr : visit p k v s with ⟨nv, cont, s1⟩
      rw [hr] at hc hsub
      simp only at hc hsub
      subst hc
      rcases hsub with hnv | hsc
      · subst hnv
        cases nv with
        | vMap es =>
          have hb' : 1 + fuelEntries es ≤ fuel := by
            simp [fuelV] at hb; omega
          obtain ⟨r, hw⟩ := ihM p k es s1 hb'
          exact ⟨r, by simp [walkValue, hr, hw]⟩
        | vArr xs =>
          have hb' : 1 + fuelElems xs ≤ fuel := by
            simp [fuelV] at hb; omega
          obtain ⟨r, hw⟩ := ihS p k xs s1 hb'
          exact ⟨r, by simp [walkValue, hr, hw]⟩
        | vStr t => exact ⟨(vStr t, s1), by simp [walkValue, hr]⟩
        | vInt n => exact ⟨(vInt n, s1), by simp [walkValue, hr]⟩
        | vBool b => exact ⟨(vBool b, s1), by simp [walkValue, hr]⟩
        | vNull => exact ⟨(vNull, s1), by simp [walkValue, hr]⟩
      · cases nv with
        | vMap es => simp [IsScalarValue] at hsc
        | vArr xs => simp [IsScalarValue] at hsc
        | vStr t => exact ⟨(vStr t, s1), by simp [walkValue, hr]⟩
        | vInt n => exact ⟨(vInt n, s1), by simp [walkValue, hr]⟩
        | vBool b => exact ⟨(vBool b, s1), by simp [walkValue, hr]⟩
        | vNull => exact ⟨(vNull, s1), by simp [walkValue, hr]⟩
    · intro pp pk es s hb
      obtain ⟨⟨es1, s2⟩, hw⟩ := ihE
        (if pk ≠ "" then pp ++ [pk] else pp) es s (by omega)
      simp only [ne_eq, ite_not] at hw
      exact ⟨(vMap es1, s2), by simp [walkMap, hw]⟩
    · intro cp es s hb
      cases es with
      | nil => exact ⟨(([] : List (String × Val)), s), by simp [walkEntries]⟩
      | cons e rest =>
        obtain ⟨k, v⟩ := e
        have hbv : fuelV v ≤ fuel := by
          have := Nat.le_max_left (fuelV v) (fuelEntries rest)
          simp [fuelEntries] at hb; omega
        have hbr : fuelEntries rest ≤ fuel := by
          have := Nat.le_max_right (fuelV v) (fuelEntries rest)
          simp [fuelEntries] at hb; omega
        obtain ⟨⟨nv, s2⟩, hw1⟩ := ihV cp k v s hbv
        obtain ⟨⟨rest1, s3⟩, hw2⟩ := ihE cp rest s2 hbr
        exact ⟨((k, nv) :: rest1, s3), by simp [walkEntries, hw1, hw2]⟩
    · intro pp pk xs s hb
      obtain ⟨⟨ys, s2⟩, hw⟩ := ihL
        (if pk ≠ "" then pp ++ [pk] else pp) 0 xs s (by omega)
      simp only [ne_eq, ite_not] at hw
      exact ⟨(vArr ys, s2), by simp [walkSlice, hw]⟩
    · intro cp i xs s hb
      cases xs with
      | nil => exact ⟨(([] : List Val), s), by simp [walkElems]⟩
      | cons v rest =>
        have hbv : fuelV v ≤ fuel := by
          have := Nat.le_max_left (fuelV v) (fuelElems rest)
          simp [fuelElems] at hb; omega
        have hbr : fuelElems rest ≤ fuel := by
          have := Nat.le_max_right (fuelV v) (fuelElems rest)
          simp [fuelElems] at hb; omega
        obtain ⟨⟨nv, s2⟩, hw1⟩ := ihV cp (indexKey i) v s hbv
        obtain ⟨⟨rest1, s3⟩, hw2⟩ := ihL cp (i + 1) rest s2 hbr
        exact ⟨(nv :: rest1, s3), by simp [walkElems, hw1, hw2]⟩

/-- With no identities, `Decrypt` always fails (part_000 lines 141-143). -/
theorem decrypt_no_identities (E : Ext) (a : String) :
    Decrypt E a [] = .error "no identities provided" := by
  simp [Decrypt]

/-- With no identities, the load visitor keeps every value and continues. -/
theorem loadVisit_empty_ids_keeps (E : Ext) (p : List String) (k : String)
    (v : Val) (s : List FieldMeta) :
    (loadVisit E [] p k v s).1 = v ∧ (loadVisit E [] p k v s).2.1 = true := by
  cases v with
  | vStr t =>
    by_cases harm : isArmoredData t = true
    · simp [loadVisit, harm, decrypt_no_identities]
    · simp only [Bool.not_eq_true] at harm
      simp [loadVisit, harm]
  | vInt n => simp [loadVisit]
  | vBool b => simp [loadVisit]
  | vNull => simp [loadVisit]
  | vMap es => simp [loadVisit]
  | vArr xs => simp [loadVisit]

/-- Claim C10: `Load` with key sources yielding zero identities returns
successfully on every parsed tree — the whole tree is returned unchanged —
and every leaf recognized as armored ciphertext is both kept verbatim and
recorded with `WasEncrypted = true`: the empty-identity error of the
decryption backend is absorbed at each leaf, never surfaced. -/
theorem c10_load_zero_identities (E : Ext) (t : Val) :
    (∃ fs, Load E (some t) (.ok []) (fuelV t) = some (.ok ⟨t, fs⟩)) ∧
    (∀ path key s fields fuel, isArmoredData s = true →
      walkValue (loadVisit E []) (fuel + 1) path key (vStr s) fields =
        some (vStr s, fields ++ [⟨path ++ [key], true, s, "", [], false⟩])) := by
  constructor
  · have hv : ∀ p k v s, ((loadVisit E []) p k v s).2.1 = true ∧
        (((loadVisit E []) p k v s).1 = v ∨
          IsScalarValue ((loadVisit E []) p k v s).1 = true) := by
      intro p k v s
      obtain ⟨h1, h2⟩ := loadVisit_empty_ids_keeps E p k v s
      exact ⟨h2, Or.inl h1⟩
    obtain ⟨⟨out, fs⟩, hw⟩ :=
      (walk_completes (loadVisit E []) hv (fuelV t)).1 [] "" t []
        (Nat.le_refl _)
    have hout : out = t :=
      (load_keep_failed E [] (fuelV t)).1 [] "" t [] out fs
        (fun u _ _ d => by simp [decrypt_no_identities]) hw
    subst hout
    exact ⟨fs, by simp [Load, Walk, hw]⟩
  · intro path key s fields fuel harm
    simp [walkValue, loadVisit, harm, decrypt_no_identities]

/-- Witness for C10: a concrete armored leaf is kept and recorded under an
empty identity list. -/
theorem c10_load_zero_identities_witness :
    walkValue (loadVisit extNone []) 1 [] "k" (vStr armored0) [] =
      some (vStr armored0, [⟨["k"], true, armored0, "", [], false⟩]) :=
  (c10_load_zero_identities extNone vNull).2 [] "k" armored0 [] 0 (by decide)

theorem sameShape_of_scalars (a b : Val) (ha : IsScalarValue a = true)
    (hb : IsScalarValue b = true) : sameShape a b = true := by
  cases a <;> cases b <;> simp_all [IsScalarValue, sameShape]

/-- A walk preserves tree shape whenever the visitor keeps every container
unchanged (and continues into it) and maps scalars to scalars. -/
theorem walk_same_shape (visit : Visitor σ)
    (hcont : ∀ p k v s, isContainer v = true →
      (visit p k v s).1 = v ∧ (visit p k v s).2.1 = true)
    (hscal : ∀ p k v s, IsScalarValue v = true →
      IsScalarValue (visit p k v s).1 = true) :
    ∀ fuel : Nat,
    (∀ p k v s out s1, walkValue visit fuel p k v s = some (out, s1) →
      sameShape v out = true) ∧
    (∀ pp pk es s out s1, walkMap visit fuel pp pk es s = some (out, s1) →
      ∃ es1, out = vMap es1 ∧ sameShapeEntries es es1 = true) ∧
    (∀ cp es s out s1, walkEntries visit fuel cp es s = some (out, s1) →
      sameShapeEntries es out = true) ∧
    (∀ pp pk xs s out s1, walkSlice visit fuel pp pk xs s = some (out, s1) →
      ∃ ys, out = vArr ys ∧ sameShapeElems xs ys = true) ∧
    (∀ cp i xs s out s1, walkElems visit fuel cp i xs s = some (out, s1) →
      sameShapeElems xs out = true) := by
  intro fuel
  induction fuel with
  | zero =>
    refine ⟨?_, ?_, ?_, ?_, ?_⟩
    · intro p k v s out s1 h; simp [walkValue] at h
    · intro pp pk es s out s1 h; simp [walkMap] at h
    · intro cp es s out s1 h; simp [walkEntries] at h
    · intro pp pk xs s out s1 h; simp [walkSlice] at h
    · intro cp i xs s out s1 h; simp [walkElems] at h
  | succ fuel ih =>
    obtain ⟨ihV, ihM, ihE, ihS, ihL⟩ := ih
    refine ⟨?_, ?_, ?_, ?_, ?_⟩
    · intro p k v s out s1 h
      rcases hr : visit p k v s with ⟨nv, cont, s2⟩
      cases v with
      | vMap es =>
        have hc := hcont p k (vMap es) s (by simp [isContainer, IsScalarValue])
        rw [hr] at hc
        simp only at hc
        obtain ⟨hnv, hcc⟩ := hc
        subst hnv; subst hcc
        simp only [walkValue, hr] at h
        obtain ⟨es1, hout, hsh⟩ := ihM p k es s2 out s1 h
        subst hout
        simpa [sameShape] using hsh
      | vArr xs =>
        have hc := hcont p k (vArr xs) s (by simp [isContainer, IsScalarValue])
        rw [hr] at hc
        simp only at hc
        obtain ⟨hnv, hcc⟩ := hc
        subst hnv; subst hcc
        simp only [walkValue, hr] at h
        obtain ⟨ys, hout, hsh⟩ := ihS p k xs s2 out s1 h
        subst hout
        simpa [sameShape] using hsh
      | vStr t =>
        have hs := hscal p k (vStr t) s (by simp [IsScalarValue])
        rw [hr] at hs
        simp only at hs
        simp only [walkValue, hr] at h
        cases cont with
        | false =>
          simp at h
          exact sameShape_of_scalars _ _ (by simp [IsScalarValue])
            (h.1 ▸ hs)
        | true =>
          cases nv with
          | vMap es => simp [IsScalarValue] at hs
          | vArr xs => simp [IsScalarValue] at hs
          | vStr u => simp at h
                      exact sameShape_of_scalars _ _ (by simp [IsScalarValue])
                        (h.1 ▸ (by simp [IsScalarValue] : IsScalarValue (vStr u) = true))
          | vInt n => simp at h
                      exact sameShape_of_scalars _ _ (by simp [IsScalarValue])
                        (h.1 ▸ (by simp [IsScalarValue] : IsScalarValue (vInt n) = true))
          | vBool b => simp at h
                       exact sameShape_of_scalars _ _ (by simp [IsScalarValue])
                         (h.1 ▸ (by simp [IsScalarValue] : IsScalarValue (vBool b) = true))
          | vNull => simp at h
                     exact sameShape_of_scalars _ _ (by simp [IsScalarValue])
                       (h.1 ▸ (by simp [IsScalarValue] : IsScalarValue vNull = true))
      | vInt n =>
        have hs := hscal p k (vInt n) s (by simp [IsScalarValue])
        rw [hr] at hs
        simp only at hs
        simp only [walkValue, hr] at h
        cases cont with
        | false =>
          simp at h
          exact sameShape_of_scalars _ _ (by simp [IsScalarValue]) (h.1 ▸ hs)
        | true =>
          cases nv with
          | vMap es => simp [IsScalarValue] at hs
          | vArr xs => simp [IsScalarValue] at hs
          | vStr u => simp at h
                      exact sameShape_of_scalars _ _ (by simp [IsScalarValue]) (h.1 ▸ hs)
          | vInt m => simp at h
                      exact sameShape_of_scalars _ _ (by simp [IsScalarValue]) (h.1 ▸ hs)
          | vBool b => simp at h
                       exact sameShape_of_scalars _ _ (by simp [IsScalarValue]) (h.1 ▸ hs)
          | vNull => simp at h
                     exact sameShape_of_scalars _ _ (by simp [IsScalarValue]) (h.1 ▸ hs)
      | vBool b =>
        have hs := hscal p k (vBool b) s (by simp [IsScalarValue])
        rw [hr] at hs
        simp only at hs
        simp only [walkValue, hr] at h
        cases cont with
        | false =>
          simp at h
          exact sameShape_of_scalars _ _ (by simp [IsScalarValue]) (h.1 ▸ hs)
        | true =>
          cases nv with
          | vMap es => simp [IsScalarValue] at hs
          | vArr xs => simp [IsScalarValue] at hs
          | vStr u => simp at h
                      exact sameShape_of_scalars _ _ (by simp [IsScalarValue]) (h.1 ▸ hs)
          | vInt m => simp at h
                      exact sameShape_of_scalars _ _ (by simp [IsScalarValue]) (h.1 ▸ hs)
          | vBool c => simp at h
                       exact sameShape_of_scalars _ _ (by simp [IsScalarValue]) (h.1 ▸ hs)
          | vNull => simp at h
                     exact sameShape_of_scalars _ _ (by simp [IsScalarValue]) (h.1 ▸ hs)
      | vNull =>
        have hs := hscal p k vNull s (by simp [IsScalarValue])
        rw [hr] at hs
        simp only at hs
        simp only [walkValue, hr] at h
        cases cont with
        | false =>
          simp at h
          exact sameShape_of_scalars _ _ (by simp [IsScalarValue]) (h.1 ▸ hs)
        | true =>
          cases nv with
          | vMap es => simp [IsScalarValue] at hs
          | vArr xs => simp [IsScalarValue] at hs
          | vStr u => simp at h
                      exact sameShape_of_scalars _ _ (by simp [IsScalarValue]) (h.1 ▸ hs)
          | vInt m => simp at h
                      exact sameShape_of_scalars _ _ (by simp [IsScalarValue]) (h.1 ▸ hs)
          | vBool c => simp at h
                       exact sameShape_of_scalars _ _ (by simp [IsScalarValue]) (h.1 ▸ hs)
          | vNull => simp at h
                     exact sameShape_of_scalars _ _ (by simp [IsScalarValue]) (h.1 ▸ hs)
    · intro pp pk es s out s1 h
      simp only [walkMap] at h
      cases hw : walkEntries visit fuel
          (if pk ≠ "" then pp ++ [pk] else pp) es s with
      | none => rw [hw] at h; simp at h
      | some r =>
        obtain ⟨es1, s2⟩ := r
        rw [hw] at h
        simp at h
        exact ⟨es1, h.1.symm, ihE _ es s es1 s2 hw⟩
    · intro cp es s out s1 h
      cases es with
      | nil => simp [walkEntries] at h; simp [h.1, sameShapeEntries]
      | cons e rest =>
        obtain ⟨k, v⟩ := e
        simp only [walkEntries] at h
        cases hv : walkValue visit fuel cp k v s with
        | none => rw [hv] at h; simp at h
        | some r1 =>
          obtain ⟨nv, s2⟩ := r1
          rw [hv] at h
          simp only [] at h
          cases hrr : walkEntries visit fuel cp rest s2 with
          | none => rw [hrr] at h; simp at h
          | some r2 =>
            obtain ⟨rest1, s3⟩ := r2
            rw [hrr] at h
            simp at h
            rw [← h.1]
            simp [sameShapeEntries, ihV cp k v s nv s2 hv,
              ihE cp rest s2 rest1 s3 hrr]
    · intro pp pk xs s out s1 h
      simp only [walkSlice] at h
      cases hw : walkElems visit fuel
          (if pk ≠ "" then pp ++ [pk] else pp) 0 xs s with
      | none => rw [hw] at h; simp at h
      | some r =>
        obtain ⟨ys, s2⟩ := r
        rw [hw] at h
        simp at h
        exact ⟨ys, h.1.symm, ihL _ 0 xs s ys s2 hw⟩
    · intro cp i xs s out s1 h
      cases xs with
      | nil => simp [walkElems] at h; simp [h.1, sameShapeElems]
      | cons v rest =>
        simp only [walkElems] at h
        cases hv : walkValue visit fuel cp (indexKey i) v s with
        | none => rw [hv] at h; simp at h
        | some r1 =>
          obtain ⟨nv, s2⟩ := r1
          rw [hv] at h
          simp only [] at h
          cases hrr : walkElems visit fuel cp (i + 1) rest s2 with
          | none => rw [hrr] at h; simp at h
          | some r2 =>
            obtain ⟨rest1, s3⟩ := r2
            rw [hrr] at h
            simp at h
            rw [← h.1]
            simp [sameShapeElems, ihV cp (indexKey i) v s nv s2 hv,
              ihL cp (i + 1) rest s2 rest1 s3 hrr]

/-- When the policy matches no container, the save visitor keeps containers
unchanged and continues into them. -/
theorem saveVisit_keeps_containers (E : Ext) (opts : Options)
    (rs : List Recipient)
    (hpol : ∀ p k v, isContainer v = true →
      shouldEncryptField opts p k v = false) :
    ∀ p k v s, isContainer v = true →
      (saveVisit E opts rs p k v s).1 = v ∧
      (saveVisit E opts rs p k v s).2.1 = true := by
  intro p k v s hcV
  simp [saveVisit, hpol p k v hcV]

/-- The save visitor maps scalars to scalars (it only ever substitutes an
armored string). -/
theorem saveVisit_scalar (E : Ext) (opts : Options) (rs : List Recipient) :
    ∀ p k v s, IsScalarValue v = true →
      IsScalarValue (saveVisit E opts rs p k v s).1 = true := by
  intro p k v s hsv
  by_cases hp : shouldEncryptField opts p k v = true
  · cases v with
    | vStr t =>
      by_cases harm : isArmoredData t = true
      · simp [saveVisit, hp, harm, IsScalarValue]
      · simp only [Bool.not_eq_true] at harm
        cases he : Encrypt E t rs with
        | error e => simp [saveVisit, hp, harm, he, IsScalarValue]
        | ok c => simp [saveVisit, hp, harm, he, IsScalarValue]
    | vInt n =>
      cases hm : E.jsonMarshal (vInt n) with
      | none => simp [saveVisit, hp, hm, IsScalarValue]
      | some j =>
        cases he : Encrypt E j rs with
        | error e => simp [saveVisit, hp, hm, he, IsScalarValue]
        | ok c => simp [saveVisit, hp, hm, he, IsScalarValue]
    | vBool b =>
      cases hm : E.jsonMarshal (vBool b) with
      | none => simp [saveVisit, hp, hm, IsScalarValue]
      | some j =>
        cases he : Encrypt E j rs with
        | error e => simp [saveVisit, hp, hm, he, IsScalarValue]
        | ok c => simp [saveVisit, hp, hm, he, IsScalarValue]
    | vNull =>
      cases hm : E.jsonMarshal vNull with
      | none => simp [saveVisit, hp, hm, IsScalarValue]
      | some j =>
        cases he : Encrypt E j rs with
        | error e => simp [saveVisit, hp, hm, he, IsScalarValue]
        | ok c => simp [saveVisit, hp, hm, he, IsScalarValue]
    | vMap es => simp [IsScalarValue] at hsv
    | vArr xs => simp [IsScalarValue] at hsv
  · simp only [Bool.not_eq_true] at hp
    simp [saveVisit, hp, hsv]

/-- The load visitor keeps containers unchanged and continues into them. -/
theorem loadVisit_keeps_containers (E : Ext) (ids : List Identity) :
    ∀ p k v s, isContainer v = true →
      (loadVisit E ids p k v s).1 = v ∧
      (loadVisit E ids p k v s).2.1 = true := by
  intro p k v s hcV
  cases v with
  | vMap es => simp [loadVisit]
  | vArr xs => simp [loadVisit]
  | vStr t => simp [isContainer, IsScalarValue] at hcV
  | vInt n => simp [isContainer, IsScalarValue] at hcV
  | vBool b => simp [isContainer, IsScalarValue] at hcV
  | vNull => simp [isContainer, IsScalarValue] at hcV

/-- When no decrypted payload decodes to a container, the load visitor maps
scalars to scalars. -/
theorem loadVisit_scalar (E : Ext) (ids : List Identity)
    (hdec : ∀ d v1, E.jsonUnmarshal d = some v1 → IsScalarValue v1 = true) :
    ∀ p k v s, IsScalarValue v = true →
      IsScalarValue (loadVisit E ids p k v s).1 = true := by
  intro p k v s hsv
  cases v with
  | vStr t =>
    by_cases harm : isArmoredData t = true
    · cases hd : Decrypt E t ids with
      | error e => simp [loadVisit, harm, hd, IsScalarValue]
      | ok d =>
        cases hj : E.jsonUnmarshal d with
        | none => simp [loadVisit, harm, hd, hj, IsScalarValue]
        | some v1 => simpa [loadVisit, harm, hd, hj] using hdec d v1 hj
    · simp only [Bool.not_eq_true] at harm
      simp [loadVisit, harm, IsScalarValue]
  | vInt n => simp [loadVisit, IsScalarValue]
  | vBool b => simp [loadVisit, IsScalarValue]
  | vNull => simp [loadVisit, IsScalarValue]
  | vMap es => simp [IsScalarValue] at hsv
  | vArr xs => simp [IsScalarValue] at hsv

/-- Claim C3 as amended: a save pass whose field policy matches no container
value, and a load pass in which no decrypted payload decodes to a container,
produce an output tree with the same map-key sets and sequence lengths at
every position as the input; only scalar leaves differ.  (The unamended
claim fails: a policy-matched container is sealed into a string, see the
counterexample.) -/
theorem c3_shape_amended :
    (∀ (E : Ext) (opts : Options) (rs : List Recipient),
      (∀ p k v, isContainer v = true →
        shouldEncryptField opts p k v = false) →
      ∀ fuel p k v s out s1,
        walkValue (saveVisit E opts rs) fuel p k v s = some (out, s1) →
        sameShape v out = true)
    ∧ (∀ (E : Ext) (ids : List Identity),
      (∀ d v1, E.jsonUnmarshal d = some v1 → IsScalarValue v1 = true) →
      ∀ fuel p k v s out s1,
        walkValue (loadVisit E ids) fuel p k v s = some (out, s1) →
        sameShape v out = true) := by
  constructor
  · intro E opts rs hpol fuel p k v s out s1 h
    exact (walk_same_shape (saveVisit E opts rs)
      (saveVisit_keeps_containers E opts rs hpol)
      (saveVisit_scalar E opts rs) fuel).1 p k v s out s1 h
  · intro E ids hdec fuel p k v s out s1 h
    exact (walk_same_shape (loadVisit E ids)
      (loadVisit_keeps_containers E ids)
      (loadVisit_scalar E ids hdec) fuel).1 p k v s out s1 h

/-- Witness for C3: both passes preserve the shape of a concrete tree. -/
theorem c3_shape_amended_witness :
    sameShape (vMap [("private_x", vStr "s")]) (vMap [("private_x", vStr "s")])
      = true ∧
    sameShape (vMap [("k", vArr [vStr "a", vInt 1])])
      (vMap [("k", vArr [vStr "a", vInt 1])]) = true :=
  ⟨c3_shape_amended.1 extNone optsScalarOnly [Recipient.x25519 "r"]
    (by
      intro p k v h
      simp only [isContainer, Bool.not_eq_true'] at h
      simp [shouldEncryptField, optsScalarOnly, h])
    9 [] "" (vMap [("private_x", vStr "s")]) [] (vMap [("private_x", vStr "s")])
    [] (by decide),
   c3_shape_amended.2 extNone []
    (by intro d v1 h; simp [extNone] at h)
    9 [] "" (vMap [("k", vArr [vStr "a", vInt 1])]) []
    (vMap [("k", vArr [vStr "a", vInt 1])]) [] (by decide)⟩

/-- Claim C3, counterexample: a save pass on a tree whose policy-matching
key holds a map seals that map into an armored string — the output tree
does not have the same map-key sets at every position as the input. -/
theorem c3_counterexample :
    Walk (saveVisit extWrapJ (setDefaults optsDefault)
        [Recipient.x25519 "r"]) 9
        (vMap [("private_m", vMap [("a", vStr "x")])]) [] =
      some (vMap [("private_m", vStr wrapJ)],
        [⟨["private_m"], true, wrapJ, "", ["r"], false⟩]) ∧
    sameShape (vMap [("private_m", vMap [("a", vStr "x")])])
      (vMap [("private_m", vStr wrapJ)]) = false := by
  constructor
  · decide
  · decide

/-- The walk with the recording visitor returns the tree unchanged and logs
exactly the `visits` sequence. -/
theorem walk_recordVisit : ∀ fuel : Nat,
    (∀ p k v s out log,
      walkValue recordVisit fuel p k v s = some (out, log) →
      out = v ∧ log = s ++ visits p k v) ∧
    (∀ pp pk es s out log,
      walkMap recordVisit fuel pp pk es s = some (out, log) →
      out = vMap es ∧
        log = s ++ visitsEntries (if pk ≠ "" then pp ++ [pk] else pp) es) ∧
    (∀ cp es s out log,
      walkEntries recordVisit fuel cp es s = some (out, log) →
      out = es ∧ log = s ++ visitsEntries cp es) ∧
    (∀ pp pk xs s out log,
      walkSlice recordVisit fuel pp pk xs s = some (out, log) →
      out = vArr xs ∧
        log = s ++ visitsElems (if pk ≠ "" then pp ++ [pk] else pp) 0 xs) ∧
    (∀ cp i xs s out log,
      walkElems recordVisit fuel cp i xs s = some (out, log) →
      out = xs ∧ log = s ++ visitsElems cp i xs) := by
  intro fuel
  induction fuel with
  | zero =>
    refine ⟨?_, ?_, ?_, ?_, ?_⟩
    · intro p k v s out log h; simp [walkValue] at h
    · intro pp pk es s out log h; simp [walkMap] at h
    · intro cp es s out log h; simp [walkEntries] at h
    · intro pp pk xs s out log h; simp [walkSlice] at h
    · intro cp i xs s out log h; simp [walkElems] at h
  | succ fuel ih =>
    obtain ⟨ihV, ihM, ihE, ihS, ihL⟩ := ih
    refine ⟨?_, ?_, ?_, ?_, ?_⟩
    · intro p k v s out log h
      cases v with
      | vMap es =>
        simp only [walkValue, recordVisit] at h
        obtain ⟨h1, h2⟩ := ihM p k es (s ++ [(p, k, vMap es)]) out log h
        exact ⟨h1, by simp [h2, visits]⟩
      | vArr xs =>
        simp only [walkValue, recordVisit] at h
        obtain ⟨h1, h2⟩ := ihS p k xs (s ++ [(p, k, vArr xs)]) out log h
        exact ⟨h1, by simp [h2, visits]⟩
      | vStr t =>
        simp [walkValue, recordVisit] at h
        exact ⟨h.1.symm, by simp [← h.2, visits]⟩
      | vInt n =>
        simp [walkValue, recordVisit] at h
        exact ⟨h.1.symm, by simp [← h.2, visits]⟩
      | vBool b =>
        simp [walkValue, recordVisit] at h
        exact ⟨h.1.symm, by simp [← h.2, visits]⟩
      | vNull =>
        simp [walkValue, recordVisit] at h
        exact ⟨h.1.symm, by simp [← h.2, visits]⟩
    · intro pp pk es s out log h
      simp only [walkMap] at h
      cases hw : walkEntries recordVisit fuel
          (if pk ≠ "" then pp ++ [pk] else pp) es s with
      | none => rw [hw] at h; simp at h
      | some r =>
        obtain ⟨es1, s2⟩ := r
        rw [hw] at h
        simp at h
        obtain ⟨h1, h2⟩ := ihE _ es s es1 s2 hw
        exact ⟨by rw [← h.1, h1], by rw [← h.2, h2]⟩
    · intro cp es s out log h
      cases es with
      | nil =>
        simp [walkEntries] at h
        exact ⟨h.1, by simp [← h.2, visitsEntries]⟩
      | cons e rest =>
        obtain ⟨k, v⟩ := e
        simp only [walkEntries] at h
        cases hv : walkValue recordVisit fuel cp k v s with
        | none => rw [hv] at h; simp at h
        | some r1 =>
          obtain ⟨nv, s2⟩ := r1
          rw [hv] at h
          simp only [] at h
          cases hrr : walkEntries recordVisit fuel cp rest s2 with
          | none => rw [hrr] at h; simp at h
          | some r2 =>
            obtain ⟨rest1, s3⟩ := r2
            rw [hrr] at h
            simp at h
            obtain ⟨hv1, hv2⟩ := ihV cp k v s nv s2 hv
            obtain ⟨hr1, hr2⟩ := ihE cp rest s2 rest1 s3 hrr
            constructor
            · rw [← h.1, hv1, hr1]
            · rw [← h.2, hr2, hv2]
              simp [visitsEntries]
    · intro pp pk xs s out log h
      simp only [walkSlice] at h
      cases hw : walkElems recordVisit fuel
          (if pk ≠ "" then pp ++ [pk] else pp) 0 xs s with
      | none => rw [hw] at h; simp at h
      | some r =>
        obtain ⟨ys, s2⟩ := r
        rw [hw] at h
        simp at h
        obtain ⟨h1, h2⟩ := ihL _ 0 xs s ys s2 hw
        exact ⟨by rw [← h.1, h1], by rw [← h.2, h2]⟩
    · intro cp i xs s out log h
      cases xs with
      | nil =>
        simp [walkElems] at h
        exact ⟨h.1, by simp [← h.2, visitsElems]⟩
      | cons v rest =>
        simp only [walkElems] at h
        cases hv : walkValue recordVisit fuel cp (indexKey i) v s with
        | none => rw [hv] at h; simp at h
        | some r1 =>
          obtain ⟨nv, s2⟩ := r1
          rw [hv] at h
          simp only [] at h
          cases hrr : walkElems recordVisit fuel cp (i + 1) rest s2 with
          | none => rw [hrr] at h; simp at h
          | some r2 =>
            obtain ⟨rest1, s3⟩ := r2
            rw [hrr] at h
            simp at h
            obtain ⟨hv1, hv2⟩ := ihV cp (indexKey i) v s nv s2 hv
            obtain ⟨hr1, hr2⟩ := ihL cp (i + 1) rest s2 rest1 s3 hrr
            constructor
            · rw [← h.1, hv1, hr1]
            · rw [← h.2, hr2, hv2]
              simp [visitsElems]

/-- Claim C5 as amended: the walker passes each node's parent-container path
(computed by appending every non-empty parent key) together with the node's
own key, and the root call receives an empty path and an empty key; the
empty key is treated as the root sentinel, so it is not distinguishable
from a map key that happens to be the empty string — children of a map
stored under an empty-string key receive the path that omits that map's
position (see the counterexample).  The observed visit log equals the
`visits` specification. -/
theorem c5_visit_paths_amended (fuel : Nat) (v out : Val)
    (log : List (List String × String × Val))
    (h : Walk recordVisit fuel v [] = some (out, log)) :
    out = v ∧ log = visits [] "" v ∧ log.head? = some ([], "", v) := by
  obtain ⟨h1, h2⟩ := (walk_recordVisit fuel).1 [] "" v [] out log h
  refine ⟨h1, by simpa using h2, ?_⟩
  rw [h2]
  cases v <;> simp [visits]

/-- Witness for C5: the log of a concrete walk equals the specification's
visit list. -/
theorem c5_visit_paths_amended_witness :
    (vMap [("a", vStr "b")] : Val) = vMap [("a", vStr "b")] ∧
    ([(([] : List String), "", vMap [("a", vStr "b")]),
      (([] : List String), "a", (vStr "b" : Val))] =
        visits [] "" (vMap [("a", vStr "b")])) ∧
    ([(([] : List String), "", vMap [("a", vStr "b")]),
      (([] : List String), "a", (vStr "b" : Val))].head? =
        some ([], "", vMap [("a", vStr "b")])) :=
  c5_visit_paths_amended 9 (vMap [("a", vStr "b")]) (vMap [("a", vStr "b")])
    [(([] : List String), "", vMap [("a", vStr "b")]),
     (([] : List String), "a", (vStr "b" : Val))] (by decide)

/-- Claim C5, counterexample: in the tree whose root map stores a map under
the empty-string key, the inner leaf "x" is visited with the empty path —
the position of its containing map (the empty-string key) is *not* included,
so the root sentinel is not distinguishable from an empty-string map key. -/
theorem c5_counterexample :
    Walk recordVisit 9 (vMap [("", vMap [("x", vStr "v")])]) [] =
      some (vMap [("", vMap [("x", vStr "v")])],
        [(([] : List String), "", vMap [("", vMap [("x", vStr "v")])]),
         (([] : List String), "", vMap [("x", vStr "v")]),
         (([] : List String), "x", (vStr "v" : Val))]) ∧
    ((([""], "x", (vStr "v" : Val)) ∈
      [(([] : List String), "", vMap [("", vMap [("x", vStr "v")])]),
       (([] : List String), "", vMap [("x", vStr "v")]),
       (([] : List String), "x", (vStr "v" : Val))]) → False) := by
  constructor
  · decide
  · decide

/-- Witness for C8: sealing fails for a matched string leaf and a matched
integer leaf; both are left unchanged and unrecorded, and a concrete `Save`
still succeeds. -/
theorem c8_seal_failure_fallback_witness :
    walkValue (saveVisit extNone (setDefaults optsDefault)
        [Recipient.x25519 "r"]) 1 [] "private_a" (vStr "pw") [] =
      some (vStr "pw", []) ∧
    walkValue (saveVisit extNone (setDefaults optsDefault)
        [Recipient.x25519 "r"]) 1 [] "private_b" (vInt 5) [] =
      some (vInt 5, []) ∧
    walkValue (saveVisit extMarshalOnly (setDefaults optsDefault)
        [Recipient.x25519 "r"]) 1 [] "private_c" (vInt 7) [] =
      some (vInt 7, []) ∧
    Save extMarshalOnly (vStr "z") optsDefault
        (.ok [Recipient.x25519 "r"]) 1 = some (.ok ("T", [])) := by
  refine ⟨?_, ?_, ?_, ?_⟩
  · exact (c8_seal_failure_fallback extNone (setDefaults optsDefault)
      [Recipient.x25519 "r"]).1 [] "private_a" "pw" [] 0
      "failed to encrypt" (by decide) (by decide) rfl
  · exact (c8_seal_failure_fallback extNone (setDefaults optsDefault)
      [Recipient.x25519 "r"]).2.1 [] "private_b" (vInt 5) [] 0
      (by decide) (by decide) (by intro s h; cases h) (by decide)
  · exact (c8_seal_failure_fallback extMarshalOnly (setDefaults optsDefault)
      [Recipient.x25519 "r"]).2.2.1 [] "private_c" (vInt 7) [] 0 "J"
      "failed to encrypt" (by decide) (by decide) (by intro s h; cases h)
      rfl rfl
  · exact (c8_seal_failure_fallback extMarshalOnly optsDefault
      [Recipient.x25519 "r"]).2.2.2 (vStr "z") 1 (vStr "z") [] "T"
      (by decide) (by decide) (by decide)

/-! ### Decimal index keys and path lookup (towards the `get` round trip) -/

theorem digitChar_isDigit (d : Nat) : (digitChar d).isDigit = true := by
  unfold digitChar
  split <;> decide

theorem digitChar_toNat (d : Nat) (hd : d < 10) :
    (digitChar d).toNat - 48 = d := by
  interval_cases d <;> decide

theorem digitsOfAux_spec : ∀ fuel n acc, n ≤ fuel →
    ∃ ds, digitsOfAux fuel n acc = ds ++ acc ∧
      (∀ c ∈ ds, c.isDigit = true) ∧
      (n = 0 → ds = []) ∧
      (n ≠ 0 → ds ≠ [] ∧ ∀ a : Nat,
        ds.foldl (fun a c => a * 10 + (c.toNat - 48)) a
          = a * 10 ^ ds.length + n) := by
  intro fuel
  induction fuel with
  | zero =>
    intro n acc hb
    have hn : n = 0 := by omega
    subst hn
    exact ⟨[], by simp [digitsOfAux], by simp, fun _ => rfl,
      fun h => absurd rfl h⟩
  | succ fuel ih =>
    intro n acc hb
    by_cases hn : n = 0
    · subst hn
      exact ⟨[], by simp [digitsOfAux], by simp, fun _ => rfl,
        fun h => absurd rfl h⟩
    · have hstep : digitsOfAux (fuel + 1) n acc =
          digitsOfAux fuel (n / 10) (digitChar (n % 10) :: acc) := by
        simp [digitsOfAux, hn]
      have hble : n / 10 ≤ fuel := by
        have hlt : n / 10 < n :=
          Nat.div_lt_self (Nat.pos_of_ne_zero hn) (by decide)
        omega
      obtain ⟨ds1, heq, hdig, hz, hnz⟩ :=
        ih (n / 10) (digitChar (n % 10) :: acc) hble
      refine ⟨ds1 ++ [digitChar (n % 10)], ?_, ?_, ?_, ?_⟩
      · rw [hstep, heq, List.append_cons]
      · intro c hc
        rcases List.mem_append.mp hc with h | h
        · exact hdig c h
        · simp at h
          subst h
          exact digitChar_isDigit _
      · intro h; exact absurd h hn
      · intro _
        refine ⟨by simp, ?_⟩
        intro a
        rw [List.foldl_append]
        by_cases h10 : n / 10 = 0
        · rw [hz h10]
          simp only [List.foldl_nil, List.foldl_cons, List.nil_append,
            List.length_cons, List.length_nil]
          rw [digitChar_toNat (n % 10) (Nat.mod_lt _ (by omega))]
          have hmn : n % 10 = n := by omega
          rw [hmn]
          ring
        · obtain ⟨hne, hfold⟩ := hnz h10
          rw [hfold]
          simp only [List.foldl_cons, List.foldl_nil, List.length_append,
            List.length_cons, List.length_nil]
          rw [digitChar_toNat (n % 10) (Nat.mod_lt _ (by omega))]
          have hmod : 10 * (n / 10) + n % 10 = n := Nat.div_add_mod n 10
          have hpow : 10 ^ (ds1.length + 1) = 10 ^ ds1.length * 10 :=
            pow_succ 10 ds1.length
          calc (a * 10 ^ ds1.length + n / 10) * 10 + n % 10
              = a * (10 ^ ds1.length * 10) + (10 * (n / 10) + n % 10) := by
                ring
            _ = a * 10 ^ (ds1.length + 1) + n := by rw [hmod, ← hpow]

theorem takeWhile_all {p : Char → Bool} : ∀ l : List Char,
    (∀ c ∈ l, p c = true) → l.takeWhile p = l := by
  intro l
  induction l with
  | nil => intro _; rfl
  | cons c rest ih =>
    intro h
    have hc : p c = true := h c (by simp)
    simp [List.takeWhile_cons, hc, ih (fun d hd => h d (by simp [hd]))]

theorem natRepr_facts (n : Nat) :
    (natRepr n).toList ≠ [] ∧ (∀ c ∈ (natRepr n).toList, c.isDigit = true) ∧
    digitsVal (natRepr n).toList = some n := by
  by_cases hn : n = 0
  · subst hn
    refine ⟨by decide, by decide, by decide⟩
  · obtain ⟨ds, heq, hdig, _, hnz⟩ := digitsOfAux_spec n n [] (Nat.le_refl n)
    obtain ⟨hne, hfold⟩ := hnz hn
    have hrepr : (natRepr n).toList = ds := by
      simp [natRepr, hn, digitsOf, heq, String.toList]
    rw [hrepr]
    refine ⟨hne, hdig, ?_⟩
    unfold digitsVal
    rw [takeWhile_all ds hdig]
    simp only [List.isEmpty_iff]
    rw [if_neg hne]
    rw [hfold 0]
    simp

theorem isDigit_ne_special (c : Char) (h : c.isDigit = true) :
    c ≠ ' ' ∧ c ≠ '-' ∧ c ≠ '+' := by
  refine ⟨?_, ?_, ?_⟩ <;> rintro rfl <;> exact absurd h (by decide)

theorem sscanfD_natRepr (n : Nat) : sscanfD (natRepr n) = some (n : Int) := by
  obtain ⟨hne, hdig, hval⟩ := natRepr_facts n
  rcases hl : (natRepr n).toList with _ | ⟨c, rest⟩
  · exact absurd hl hne
  · have hdc : c.isDigit = true :=
      hdig c (hl.symm ▸ List.mem_cons_self c rest)
    obtain ⟨hsp, hmi, hpl⟩ := isDigit_ne_special c hdc
    rw [hl] at hval
    have hstep : sscanfD (natRepr n) =
        (digitsVal (c :: rest)).map fun m => (m : Int) := by
      unfold sscanfD
      rw [hl, List.dropWhile_cons]
      simp [hsp, hmi, hpl]
    rw [hstep, hval]
    rfl

theorem strToList_append (a b : String) :
    (a ++ b).toList = a.toList ++ b.toList := by
  cases a; cases b; rfl

theorem strMk_data (s : String) : String.mk s.data = s := by
  cases s; rfl

theorem indexKey_toList (i : Nat) :
    (indexKey i).toList = '[' :: ((natRepr i).toList ++ [']']) := by
  unfold indexKey
  rw [strToList_append, strToList_append]
  rfl

theorem indexKey_ne_empty (i : Nat) : indexKey i ≠ "" := by
  intro h
  have hcg := congrArg String.toList h
  rw [indexKey_toList] at hcg
  simp at hcg

theorem GetValue_arr_indexKey (xs : List Val) (i : Nat) (hi : i < xs.length)
    (c : Val) (hc : xs.get? i = some c) (rest : List String) :
    GetValue (vArr xs) (indexKey i :: rest) = GetValue c rest := by
  obtain ⟨hne, _, _⟩ := natRepr_facts i
  have hlen : 1 ≤ (natRepr i).data.length := by
    cases hl : (natRepr i).data with
    | nil => exact absurd (by simpa [String.toList] using hl) hne
    | cons a b => simp
  simp only [GetValue]
  rw [indexKey_toList]
  simp only [String.toList]
  have h3 : ¬(('[' :: ((natRepr i).data ++ [']'])).length < 3) := by
    simp only [List.length_cons, List.length_append, List.length_nil]
    omega
  rw [if_neg h3]
  rw [if_neg (show ¬(('[' :: ((natRepr i).data ++ [']'])).head? ≠ some '[')
    by simp)]
  have hlast : ('[' :: ((natRepr i).data ++ [']'])).getLast? = some ']' := by
    rw [← List.cons_append]
    exact List.getLast?_concat _
  rw [if_neg (by simp [hlast])]
  have hdrop : (('[' :: ((natRepr i).data ++ [']'])).drop 1).dropLast
      = (natRepr i).data := by
    simp [List.dropLast_concat]
  rw [hdrop, strMk_data, sscanfD_natRepr]
  have hnn : ¬((i : Int) < 0) := by omega
  have hlt : ¬((xs.length : Int) ≤ (i : Int)) := by omega
  have hc1 : xs[i]? = some c := by simpa [List.get?_eq_getElem?] using hc
  simp [hnn, hlt, hc1]

theorem sizeOf_lt_of_mem_entries {k : String} {v : Val}
    {es : List (String × Val)} (h : (k, v) ∈ es) :
    sizeOf v < sizeOf (vMap es) := by
  have h1 := List.sizeOf_lt_of_mem h
  have h2 : sizeOf (k, v) = 1 + sizeOf k + sizeOf v := rfl
  have h3 : sizeOf (vMap es) = 1 + sizeOf es := by simp
  omega

theorem sizeOf_lt_of_mem_elems {v : Val} {xs : List Val} (h : v ∈ xs) :
    sizeOf v < sizeOf (vArr xs) := by
  have h1 := List.sizeOf_lt_of_mem h
  have h3 : sizeOf (vArr xs) = 1 + sizeOf xs := by simp
  omega

/-- Structural induction over trees, with membership-based hypotheses for
the nested lists. -/
theorem valInd {motive : Val → Prop}
    (hstr : ∀ s, motive (vStr s)) (hint : ∀ n, motive (vInt n))
    (hbool : ∀ b, motive (vBool b)) (hnull : motive vNull)
    (hmap : ∀ es, (∀ k v, (k, v) ∈ es → motive v) → motive (vMap es))
    (harr : ∀ xs, (∀ v, v ∈ xs → motive v) → motive (vArr xs)) :
    ∀ v, motive v
  | vStr s => hstr s
  | vInt n => hint n
  | vBool b => hbool b
  | vNull => hnull
  | vMap es => hmap es (fun k v h =>
      valInd hstr hint hbool hnull hmap harr v)
  | vArr xs => harr xs (fun v h =>
      valInd hstr hint hbool hnull hmap harr v)
termination_by v => sizeOf v
decreasing_by
  · exact sizeOf_lt_of_mem_entries h
  · exact sizeOf_lt_of_mem_elems h

theorem visitsEntries_mem {cp : List String} {es : List (String × Val)}
    {e : List String × String × Val} (h : e ∈ visitsEntries cp es) :
    ∃ k v, (k, v) ∈ es ∧ e ∈ visits cp k v := by
  induction es with
  | nil => simp [visitsEntries] at h
  | cons kv rest ih =>
    obtain ⟨k, v⟩ := kv
    simp only [visitsEntries] at h
    rcases List.mem_append.mp h with h1 | h1
    · exact ⟨k, v, by simp, h1⟩
    · obtain ⟨k1, v1, hmem, he⟩ := ih h1
      exact ⟨k1, v1, by simp [hmem], he⟩

theorem visitsElems_mem {cp : List String} :
    ∀ {i : Nat} {xs : List Val} {e : List String × String × Val},
    e ∈ visitsElems cp i xs →
    ∃ j c, xs.get? j = some c ∧ e ∈ visits cp (indexKey (i + j)) c := by
  intro i xs
  induction xs generalizing i with
  | nil => intro e h; simp [visitsElems] at h
  | cons v rest ih =>
    intro e h
    simp only [visitsElems] at h
    rcases List.mem_append.mp h with h1 | h1
    · exact ⟨0, v, rfl, by simpa using h1⟩
    · obtain ⟨j, c, hg, he⟩ := ih (i := i + 1) h1
      refine ⟨j + 1, c, by simpa using hg, ?_⟩
      have hidx : i + 1 + j = i + (j + 1) := by omega
      rwa [hidx] at he

theorem lookupEntry_of_mem : ∀ (es : List (String × Val)) (k : String)
    (v : Val), mapKeysUniqueEntries es = true → (k, v) ∈ es →
    lookupEntry es k = some v := by
  intro es
  induction es with
  | nil => intro k v _ h; simp at h
  | cons e rest ih =>
    obtain ⟨k0, v0⟩ := e
    intro k v hu hm
    simp only [mapKeysUniqueEntries, Bool.and_eq_true] at hu
    obtain ⟨⟨hf, _⟩, hrest⟩ := hu
    rcases List.mem_cons.mp hm with he | hm2
    · cases he
      simp [lookupEntry]
    · by_cases hkk : k0 = k
      · exfalso
        subst hkk
        have hany : rest.any (fun e => e.1 == k0) = true :=
          List.any_eq_true.mpr ⟨(k0, v), hm2, by simp⟩
        simp [keyFresh, hany] at hf
      · simp only [lookupEntry, if_neg hkk]
        exact ih k v hrest hm2

theorem noEmptyKeysEntries_mem {es : List (String × Val)} {k : String}
    {v : Val} (hu : noEmptyKeysEntries es = true) (hm : (k, v) ∈ es) :
    k ≠ "" ∧ noEmptyKeys v = true := by
  induction es with
  | nil => simp at hm
  | cons e rest ih =>
    obtain ⟨k0, v0⟩ := e
    simp only [noEmptyKeysEntries, Bool.and_eq_true] at hu
    obtain ⟨⟨hk0, hv0⟩, hrest⟩ := hu
    rcases List.mem_cons.mp hm with he | hm2
    · cases he
      exact ⟨by simpa using hk0, hv0⟩
    · exact ih hrest hm2

theorem noEmptyKeysElems_mem {xs : List Val} {v : Val}
    (hu : noEmptyKeysElems xs = true) (hm : v ∈ xs) :
    noEmptyKeys v = true := by
  induction xs with
  | nil => simp at hm
  | cons x rest ih =>
    simp only [noEmptyKeysElems, Bool.and_eq_true] at hu
    rcases List.mem_cons.mp hm with he | hm2
    · subst he; exact hu.1
    · exact ih hu.2 hm2

theorem mapKeysUniqueEntries_mem {es : List (String × Val)} {k : String}
    {v : Val} (hu : mapKeysUniqueEntries es = true) (hm : (k, v) ∈ es) :
    mapKeysUnique v = true := by
  induction es with
  | nil => simp at hm
  | cons e rest ih =>
    obtain ⟨k0, v0⟩ := e
    simp only [mapKeysUniqueEntries, Bool.and_eq_true] at hu
    obtain ⟨⟨_, hv0⟩, hrest⟩ := hu
    rcases List.mem_cons.mp hm with he | hm2
    · cases he
      exact hv0
    · exact ih hrest hm2

theorem mapKeysUniqueElems_mem {xs : List Val} {v : Val}
    (hu : mapKeysUniqueElems xs = true) (hm : v ∈ xs) :
    mapKeysUnique v = true := by
  induction xs with
  | nil => simp at hm
  | cons x rest ih =>
    simp only [mapKeysUniqueElems, Bool.and_eq_true] at hu
    rcases List.mem_cons.mp hm with he | hm2
    · subst he; exact hu.1
    · exact ih hu.2 hm2

/-- Every scalar entry of the `visits` log is addressed by its logged path:
appending the logged key to the logged path and resolving from the subtree
root reaches exactly the logged value, provided no map key is empty and map
keys are unique. -/
theorem visits_get : ∀ v : Val, ∀ p0 k0,
    noEmptyKeys v = true → mapKeysUnique v = true →
    (k0 = "" → IsScalarValue v = false) →
    ∀ p k u, (p, k, u) ∈ visits p0 k0 v → IsScalarValue u = true →
    ∃ rest, p ++ [k] = (if k0 ≠ "" then p0 ++ [k0] else p0) ++ rest ∧
      GetValue v rest = some u := by
  intro v
  induction v using valInd with
  | hstr s =>
    intro p0 k0 _ _ hg p k u hmem hsc
    simp [visits] at hmem
    obtain ⟨hp, hk, hu⟩ := hmem
    have hk0 : k0 ≠ "" := by
      intro h
      have hgf := hg h
      simp [IsScalarValue] at hgf
    refine ⟨[], ?_, ?_⟩
    · rw [hp, hk]
      simp [hk0]
    · simp [GetValue, hu]
  | hint n =>
    intro p0 k0 _ _ hg p k u hmem hsc
    simp [visits] at hmem
    obtain ⟨hp, hk, hu⟩ := hmem
    have hk0 : k0 ≠ "" := by
      intro h
      have hgf := hg h
      simp [IsScalarValue] at hgf
    refine ⟨[], ?_, ?_⟩
    · rw [hp, hk]
      simp [hk0]
    · simp [GetValue, hu]
  | hbool b =>
    intro p0 k0 _ _ hg p k u hmem hsc
    simp [visits] at hmem
    obtain ⟨hp, hk, hu⟩ := hmem
    have hk0 : k0 ≠ "" := by
      intro h
      have hgf := hg h
      simp [IsScalarValue] at hgf
    refine ⟨[], ?_, ?_⟩
    · rw [hp, hk]
      simp [hk0]
    · simp [GetValue, hu]
  | hnull =>
    intro p0 k0 _ _ hg p k u hmem hsc
    simp [visits] at hmem
    obtain ⟨hp, hk, hu⟩ := hmem
    have hk0 : k0 ≠ "" := by
      intro h
      have hgf := hg h
      simp [IsScalarValue] at hgf
    refine ⟨[], ?_, ?_⟩
    · rw [hp, hk]
      simp [hk0]
    · simp [GetValue, hu]
  | hmap es ih =>
    intro p0 k0 hne hu _ p k u hmem hsc
    simp only [visits] at hmem
    rcases List.mem_cons.mp hmem with he | h1
    · cases he
      simp [IsScalarValue] at hsc
    · obtain ⟨kc, c, hmemE, he⟩ := visitsEntries_mem h1
      have hneE : noEmptyKeysEntries es = true := by
        simpa [noEmptyKeys] using hne
      have huE : mapKeysUniqueEntries es = true := by
        simpa [mapKeysUnique] using hu
      obtain ⟨hkc, hnec⟩ := noEmptyKeysEntries_mem hneE hmemE
      have huc : mapKeysUnique c = true := mapKeysUniqueEntries_mem huE hmemE
      obtain ⟨rest1, hpath, hget⟩ :=
        ih kc c hmemE (if k0 ≠ "" then p0 ++ [k0] else p0) kc hnec huc
          (fun h => absurd h hkc) p k u he hsc
      rw [if_pos hkc] at hpath
      refine ⟨kc :: rest1, ?_, ?_⟩
      · rw [hpath]
        simp
      · simp only [GetValue, lookupEntry_of_mem es kc c huE hmemE]
        exact hget
  | harr xs ih =>
    intro p0 k0 hne hu _ p k u hmem hsc
    simp only [visits] at hmem
    rcases List.mem_cons.mp hmem with he | h1
    · cases he
      simp [IsScalarValue] at hsc
    · obtain ⟨j, c, hget?, he⟩ := visitsElems_mem h1
      simp only [Nat.zero_add] at he
      have hmemc : c ∈ xs := List.get?_mem hget?
      have hj : j < xs.length := by
        rcases List.get?_eq_some.mp hget? with ⟨hj, _⟩
        exact hj
      have hnec : noEmptyKeys c = true :=
        noEmptyKeysElems_mem (by simpa [noEmptyKeys] using hne) hmemc
      have huc : mapKeysUnique c = true :=
        mapKeysUniqueElems_mem (by simpa [mapKeysUnique] using hu) hmemc
      obtain ⟨rest1, hpath, hget⟩ :=
        ih c hmemc (if k0 ≠ "" then p0 ++ [k0] else p0) (indexKey j) hnec huc
          (fun h => absurd h (indexKey_ne_empty j)) p k u he hsc
      rw [if_pos (indexKey_ne_empty j)] at hpath
      refine ⟨indexKey j :: rest1, ?_, ?_⟩
      · rw [hpath]
        simp
      · rw [GetValue_arr_indexKey xs j hj c hget? rest1]
        exact hget

theorem decrypt_ok_of_open (E : Ext) (ids : List Identity) (a d : String)
    (hid : ids.length ≠ 0) (ho : E.ageOpen a ids = some d) :
    Decrypt E a ids = .ok d := by
  simp [Decrypt, hid, ho]

theorem decrypt_not_ok_of_open_none (E : Ext) (ids : List Identity)
    (a : String) (ho : E.ageOpen a ids = none) :
    ∀ d, Decrypt E a ids ≠ .ok d := by
  intro d
  by_cases hid : ids.length = 0
  · simp [Decrypt, hid]
  · simp [Decrypt, hid, ho]

theorem encrypt_ok_seal (E : Ext) (rs : List Recipient) (t c : String)
    (he : Encrypt E t rs = .ok c) : E.ageSeal t rs = some c := by
  unfold Encrypt at he
  by_cases hrs : rs.length = 0
  · simp [hrs] at he
  · rw [if_neg hrs] at he
    cases hs : E.ageSeal t rs with
    | none => rw [hs] at he; simp at he
    | some c1 => rw [hs] at he; simp at he; rw [he]

/-- A string leaf that satisfies `LeafOK` comes back to itself after a save
visit followed by a load walk, whatever the policy decided. -/
theorem save_load_leaf (E : Ext) (opts : Options) (rs : List Recipient)
    (ids : List Identity) (hid : ids.length ≠ 0) (t : String)
    (hleafT : LeafOK E rs ids t) :
    ∀ fuel p k s out s1,
      walkValue (saveVisit E opts rs) (fuel + 1) p k (vStr t) s =
        some (out, s1) →
    ∀ fuel2 p2 k2 s2 out2 s3,
      walkValue (loadVisit E ids) fuel2 p2 k2 out s2 = some (out2, s3) →
      out2 = vStr t := by
  obtain ⟨hno, hjson, hsealed⟩ := hleafT
  have hkeep : ∀ fuel2 p2 k2 s2 out2 s3,
      walkValue (loadVisit E ids) fuel2 p2 k2 (vStr t) s2 = some (out2, s3) →
      out2 = vStr t := by
    intro fuel2 p2 k2 s2 out2 s3 h2
    refine (load_keep_failed E ids fuel2).1 p2 k2 (vStr t) s2 out2 s3 ?_ h2
    intro u hu harm d
    simp [strLeaves] at hu
    subst hu
    exact decrypt_not_ok_of_open_none E ids u (hno harm) d
  intro fuel p k s out s1 h fuel2 p2 k2 s2 out2 s3 h2
  by_cases hp : shouldEncryptField opts p k (vStr t) = true
  · by_cases harm : isArmoredData t = true
    · simp [walkValue, saveVisit, hp, harm] at h
      rw [← h.1] at h2
      exact hkeep _ _ _ _ _ _ h2
    · simp only [Bool.not_eq_true] at harm
      cases he : Encrypt E t rs with
      | error e =>
        simp [walkValue, saveVisit, hp, harm, he] at h
        rw [← h.1] at h2
        exact hkeep _ _ _ _ _ _ h2
      | ok c =>
        simp [walkValue, saveVisit, hp, harm, he] at h
        obtain ⟨harmc, hopenc⟩ := hsealed c (encrypt_ok_seal E rs t c he)
        have hdec : Decrypt E c ids = .ok t :=
          decrypt_ok_of_open E ids c t hid hopenc
        rw [← h.1] at h2
        cases fuel2 with
        | zero => simp [walkValue] at h2
        | succ fuel2 =>
          simp [walkValue, loadVisit, harmc, hdec, hjson] at h2
          exact h2.1.symm
  · simp only [Bool.not_eq_true] at hp
    simp [walkValue, saveVisit, hp] at h
    rw [← h.1] at h2
    exact hkeep _ _ _ _ _ _ h2

/-- A string-only subtree is returned to its original value by a save walk
followed by a load walk, under the `LeafOK`/`ContOK` backend contracts
(stated for all five walker functions simultaneously, by induction on the
save walk's fuel). -/
theorem save_load_inverse (E : Ext) (opts : Options) (rs : List Recipient)
    (ids : List Identity) (hid : ids.length ≠ 0) (hcont : ContOK E rs ids) :
    ∀ fuel : Nat,
    (∀ p k v s out s1, StringOnly v = true →
      (∀ t ∈ strLeaves v, LeafOK E rs ids t) →
      walkValue (saveVisit E opts rs) fuel p k v s = some (out, s1) →
      ∀ fuel2 p2 k2 s2 out2 s3,
        walkValue (loadVisit E ids) fuel2 p2 k2 out s2 = some (out2, s3) →
        out2 = v) ∧
    (∀ pp pk es s out s1, StringOnlyEntries es = true →
      (∀ t ∈ strLeavesEntries es, LeafOK E rs ids t) →
      walkMap (saveVisit E opts rs) fuel pp pk es s = some (out, s1) →
      ∀ fuel2 p2 k2 s2 out2 s3,
        walkValue (loadVisit E ids) fuel2 p2 k2 out s2 = some (out2, s3) →
        out2 = vMap es) ∧
    (∀ cp es s out s1, StringOnlyEntries es = true →
      (∀ t ∈ strLeavesEntries es, LeafOK E rs ids t) →
      walkEntries (saveVisit E opts rs) fuel cp es s = some (out, s1) →
      ∀ fuel2 cp2 s2 out2 s3,
        walkEntries (loadVisit E ids) fuel2 cp2 out s2 = some (out2, s3) →
        out2 = es) ∧
    (∀ pp pk xs s out s1, StringOnlyElems xs = true →
      (∀ t ∈ strLeavesElems xs, LeafOK E rs ids t) →
      walkSlice (saveVisit E opts rs) fuel pp pk xs s = some (out, s1) →
      ∀ fuel2 p2 k2 s2 out2 s3,
        walkValue (loadVisit E ids) fuel2 p2 k2 out s2 = some (out2, s3) →
        out2 = vArr xs) ∧
    (∀ cp i xs s out s1, StringOnlyElems xs = true →
      (∀ t ∈ strLeavesElems xs, LeafOK E rs ids t) →
      walkElems (saveVisit E opts rs) fuel cp i xs s = some (out, s1) →
      ∀ fuel2 cp2 i2 s2 out2 s3,
        walkElems (loadVisit E ids) fuel2 cp2 i2 out s2 = some (out2, s3) →
        out2 = xs) := by
  intro fuel
  induction fuel with
  | zero =>
    refine ⟨?_, ?_, ?_, ?_, ?_⟩
    · intro p k v s out s1 _ _ h; simp [walkValue] at h
    · intro pp pk es s out s1 _ _ h; simp [walkMap] at h
    · intro cp es s out s1 _ _ h; simp [walkEntries] at h
    · intro pp pk xs s out s1 _ _ h; simp [walkSlice] at h
    · intro cp i xs s out s1 _ _ h; simp [walkElems] at h
  | succ fuel ih =>
    obtain ⟨ihV, ihM, ihE, ihS, ihL⟩ := ih
    refine ⟨?_, ?_, ?_, ?_, ?_⟩
    · intro p k v s out s1 hso hleaf h fuel2 p2 k2 s2 out2 s3 h2
      cases v with
      | vStr t =>
        exact save_load_leaf E opts rs ids hid t
          (hleaf t (by simp [strLeaves])) fuel p k s out s1 h
          fuel2 p2 k2 s2 out2 s3 h2
      | vInt n => simp [StringOnly] at hso
      | vBool b => simp [StringOnly] at hso
      | vNull => simp [StringOnly] at hso
      | vMap es =>
        have hsoE : StringOnlyEntries es = true := by
          simpa [StringOnly] using hso
        have hleafE : ∀ t ∈ strLeavesEntries es, LeafOK E rs ids t := by
          simpa [strLeaves] using hleaf
        by_cases hp : shouldEncryptField opts p k (vMap es) = true
        · cases hm : E.jsonMarshal (vMap es) with
          | none =>
            simp [walkValue, saveVisit, hp, hm] at h
            exact ihM p k es s out s1 hsoE hleafE h fuel2 p2 k2 s2 out2 s3 h2
          | some j =>
            cases he : Encrypt E j rs with
            | error e =>
              simp [walkValue, saveVisit, hp, hm, he] at h
              exact ihM p k es s out s1 hsoE hleafE h fuel2 p2 k2 s2 out2 s3
                h2
            | ok c =>
              simp [walkValue, saveVisit, hp, hm, he] at h
              obtain ⟨hjd, hsealc⟩ := hcont (vMap es) hso j hm
              obtain ⟨harmc, hopenc⟩ := hsealc c (encrypt_ok_seal E rs j c he)
              have hdec : Decrypt E c ids = .ok j :=
                decrypt_ok_of_open E ids c j hid hopenc
              rw [← h.1] at h2
              cases fuel2 with
              | zero => simp [walkValue] at h2
              | succ fuel2a =>
                simp [walkValue, loadVisit, harmc, hdec, hjd] at h2
                exact (load_keep_failed E ids fuel2a).2.1 p2 k2 es _ out2 s3
                  (fun u hu harm d =>
                    decrypt_not_ok_of_open_none E ids u
                      ((hleafE u hu).1 harm) d) h2
        · simp only [Bool.not_eq_true] at hp
          simp [walkValue, saveVisit, hp] at h
          exact ihM p k es s out s1 hsoE hleafE h fuel2 p2 k2 s2 out2 s3 h2
      | vArr xs =>
        have hsoE : StringOnlyElems xs = true := by
          simpa [StringOnly] using hso
        have hleafE : ∀ t ∈ strLeavesElems xs, LeafOK E rs ids t := by
          simpa [strLeaves] using hleaf
        by_cases hp : shouldEncryptField opts p k (vArr xs) = true
        · cases hm : E.jsonMarshal (vArr xs) with
          | none =>
            simp [walkValue, saveVisit, hp, hm] at h
            exact ihS p k xs s out s1 hsoE hleafE h fuel2 p2 k2 s2 out2 s3 h2
          | some j =>
            cases he : Encrypt E j rs with
            | error e =>
              simp [walkValue, saveVisit, hp, hm, he] at h
              exact ihS p k xs s out s1 hsoE hleafE h fuel2 p2 k2 s2 out2 s3
                h2
            | ok c =>
              simp [walkValue, saveVisit, hp, hm, he] at h
              obtain ⟨hjd, hsealc⟩ := hcont (vArr xs) hso j hm
              obtain ⟨harmc, hopenc⟩ := hsealc c (encrypt_ok_seal E rs j c he)
              have hdec : Decrypt E c ids = .ok j :=
                decrypt_ok_of_open E ids c j hid hopenc
              rw [← h.1] at h2
              cases fuel2 with
              | zero => simp [walkValue] at h2
              | succ fuel2a =>
                simp [walkValue, loadVisit, harmc, hdec, hjd] at h2
                exact (load_keep_failed E ids fuel2a).2.2.2.1 p2 k2 xs _ out2
                  s3 (fun u hu harm d =>
                    decrypt_not_ok_of_open_none E ids u
                      ((hleafE u hu).1 harm) d) h2
        · simp only [Bool.not_eq_true] at hp
          simp [walkValue, saveVisit, hp] at h
          exact ihS p k xs s out s1 hsoE hleafE h fuel2 p2 k2 s2 out2 s3 h2
    · intro pp pk es s out s1 hsoE hleafE h fuel2 p2 k2 s2 out2 s3 h2
      simp only [walkMap] at h
      cases hw : walkEntries (saveVisit E opts rs) fuel
          (if pk ≠ "" then pp ++ [pk] else pp) es s with
      | none => rw [hw] at h; simp at h
      | some r =>
        obtain ⟨es1, s4⟩ := r
        rw [hw] at h
        simp at h
        rw [← h.1] at h2
        cases fuel2 with
        | zero => simp [walkValue] at h2
        | succ fuel2a =>
          simp [walkValue, loadVisit] at h2
          cases fuel2a with
          | zero => simp [walkMap] at h2
          | succ fuel2b =>
            simp only [walkMap] at h2
            cases hw2 : walkEntries (loadVisit E ids) fuel2b
                (if k2 ≠ "" then p2 ++ [k2] else p2) es1 s2 with
            | none => rw [hw2] at h2; simp at h2
            | some r2 =>
              obtain ⟨es2, s5⟩ := r2
              rw [hw2] at h2
              simp at h2
              have hes := ihE _ es s es1 s4 hsoE hleafE hw fuel2b _ s2 es2 s5
                hw2
              rw [← h2.1, hes]
    · intro cp es s out s1 hsoE hleafE h fuel2 cp2 s2 out2 s3 h2
      cases es with
      | nil =>
        simp [walkEntries] at h
        rw [h.1] at h2
        cases fuel2 with
        | zero => simp [walkEntries] at h2
        | succ fuel2a =>
          simp [walkEntries] at h2
          exact h2.1
      | cons e rest =>
        obtain ⟨k, v⟩ := e
        have hsov : StringOnly v = true := by
          simp only [StringOnlyEntries, Bool.and_eq_true] at hsoE
          exact hsoE.1
        have hsor : StringOnlyEntries rest = true := by
          simp only [StringOnlyEntries, Bool.and_eq_true] at hsoE
          exact hsoE.2
        have hlv : ∀ t ∈ strLeaves v, LeafOK E rs ids t := by
          intro t ht
          exact hleafE t (by simp [strLeavesEntries, ht])
        have hlr : ∀ t ∈ strLeavesEntries rest, LeafOK E rs ids t := by
          intro t ht
          refine hleafE t ?_
          simp [strLeavesEntries]
          right
          exact ht
        simp only [walkEntries] at h
        cases hv : walkValue (saveVisit E opts rs) fuel cp k v s with
        | none => rw [hv] at h; simp at h
        | some r1 =>
          obtain ⟨nv, s4⟩ := r1
          rw [hv] at h
          simp only [] at h
          cases hr : walkEntries (saveVisit E opts rs) fuel cp rest s4 with
          | none => rw [hr] at h; simp at h
          | some r2 =>
            obtain ⟨rest1, s5⟩ := r2
            rw [hr] at h
            simp at h
            rw [← h.1] at h2
            cases fuel2 with
            | zero => simp [walkEntries] at h2
            | succ fuel2a =>
              simp only [walkEntries] at h2
              cases hv2 : walkValue (loadVisit E ids) fuel2a cp2 k nv s2 with
              | none => rw [hv2] at h2; simp at h2
              | some r3 =>
                obtain ⟨nv2, s6⟩ := r3
                rw [hv2] at h2
                simp only [] at h2
                cases hr2 : walkEntries (loadVisit E ids) fuel2a cp2 rest1
                    s6 with
                | none => rw [hr2] at h2; simp at h2
                | some r4 =>
                  obtain ⟨rest2, s7⟩ := r4
                  rw [hr2] at h2
                  simp at h2
                  have h1 := ihV cp k v s nv s4 hsov hlv hv fuel2a cp2 k s2
                    nv2 s6 hv2
                  have hrr := ihE cp rest s4 rest1 s5 hsor hlr hr fuel2a cp2
                    s6 rest2 s7 hr2
                  rw [← h2.1, h1, hrr]
    · intro pp pk xs s out s1 hsoE hleafE h fuel2 p2 k2 s2 out2 s3 h2
      simp only [walkSlice] at h
      cases hw : walkElems (saveVisit E opts rs) fuel
          (if pk ≠ "" then pp ++ [pk] else pp) 0 xs s with
      | none => rw [hw] at h; simp at h
      | some r =>
        obtain ⟨ys, s4⟩ := r
        rw [hw] at h
        simp at h
        rw [← h.1] at h2
        cases fuel2 with
        | zero => simp [walkValue] at h2
        | succ fuel2a =>
          simp [walkValue, loadVisit] at h2
          cases fuel2a with
          | zero => simp [walkSlice] at h2
          | succ fuel2b =>
            simp only [walkSlice] at h2
            cases hw2 : walkElems (loadVisit E ids) fuel2b
                (if k2 ≠ "" then p2 ++ [k2] else p2) 0 ys s2 with
            | none => rw [hw2] at h2; simp at h2
            | some r2 =>
              obtain ⟨ys2, s5⟩ := r2
              rw [hw2] at h2
              simp at h2
              have hys := ihL _ 0 xs s ys s4 hsoE hleafE hw fuel2b _ 0 s2
                ys2 s5 hw2
              rw [← h2.1, hys]
    · intro cp i xs s out s1 hsoE hleafE h fuel2 cp2 i2 s2 out2 s3 h2
      cases xs with
      | nil =>
        simp [walkElems] at h
        rw [h.1] at h2
        cases fuel2 with
        | zero => simp [walkElems] at h2
        | succ fuel2a =>
          simp [walkElems] at h2
          exact h2.1
      | cons v rest =>
        have hsov : StringOnly v = true := by
          simp only [StringOnlyElems, Bool.and_eq_true] at hsoE
          exact hsoE.1
        have hsor : StringOnlyElems rest = true := by
          simp only [StringOnlyElems, Bool.and_eq_true] at hsoE
          exact hsoE.2
        have hlv : ∀ t ∈ strLeaves v, LeafOK E rs ids t := by
          intro t ht
          exact hleafE t (by simp [strLeavesElems, ht])
        have hlr : ∀ t ∈ strLeavesElems rest, LeafOK E rs ids t := by
          intro t ht
          refine hleafE t ?_
          simp [strLeavesElems]
          right
          exact ht
        simp only [walkElems] at h
        cases hv : walkValue (saveVisit E opts rs) fuel cp (indexKey i) v
            s with
        | none => rw [hv] at h; simp at h
        | some r1 =>
          obtain ⟨nv, s4⟩ := r1
          rw [hv] at h
          simp only [] at h
          cases hr : walkElems (saveVisit E opts rs) fuel cp (i + 1) rest
              s4 with
          | none => rw [hr] at h; simp at h
          | some r2 =>
            obtain ⟨rest1, s5⟩ := r2
            rw [hr] at h
            simp at h
            rw [← h.1] at h2
            cases fuel2 with
            | zero => simp [walkElems] at h2
            | succ fuel2a =>
              simp only [walkElems] at h2
              cases hv2 : walkValue (loadVisit E ids) fuel2a cp2
                  (indexKey i2) nv s2 with
              | none => rw [hv2] at h2; simp at h2
              | some r3 =>
                obtain ⟨nv2, s6⟩ := r3
                rw [hv2] at h2
                simp only [] at h2
                cases hr2 : walkElems (loadVisit E ids) fuel2a cp2 (i2 + 1)
                    rest1 s6 with
                | none => rw [hr2] at h2; simp at h2
                | some r4 =>
                  obtain ⟨rest2, s7⟩ := r4
                  rw [hr2] at h2
                  simp at h2
                  have h1 := ihV cp (indexKey i) v s nv s4 hsov hlv hv
                    fuel2a cp2 (indexKey i2) s2 nv2 s6 hv2
                  have hrr := ihL cp (i + 1) rest s4 rest1 s5 hsor hlr hr
                    fuel2a cp2 (i2 + 1) s6 rest2 s7 hr2
                  rw [← h2.1, h1, hrr]

/-- Claim C1 as amended: for every string-only tree T, policy, recipients R
and identities I such that I opens every ciphertext sealed to R back to its
payload, sealed outputs carry the armor markers, no string leaf of T opens
under I even when it contains armor markers, **no string leaf of T parses
under the interchange codec**, and the interchange codec round-trips
string-only values — the tree returned by `Load` after a save pass is
deep-equal to T (composition is at tree level: `parse ∘ serialize = id` is
the §6 document-codec contract).  Without the highlighted caveat the claim
fails: every decrypted payload is JSON-decode-attempted, so a string leaf
such as "42" comes back as the integer 42 (see the counterexample). -/
theorem c1_roundtrip_amended (E : Ext) (opts : Options) (rs : List Recipient)
    (ids : List Identity) (T v1 : Val) (fuel fuel2 : Nat)
    (fs1 : List FieldMeta) (r : Result)
    (hso : StringOnly T = true)
    (hid : ids.length ≠ 0)
    (hleaf : ∀ t ∈ strLeaves T, LeafOK E rs ids t)
    (hcont : ContOK E rs ids)
    (hsave : Walk (saveVisit E (setDefaults opts) rs) fuel T [] =
      some (v1, fs1))
    (hload : Load E (some v1) (.ok ids) fuel2 = some (.ok r)) :
    r.Tree = T := by
  cases hw : Walk (loadVisit E ids) fuel2 v1 [] with
  | none => simp [Load, hw] at hload
  | some p =>
    obtain ⟨dt, fs⟩ := p
    simp [Load, hw] at hload
    have hdt : dt = T :=
      (save_load_inverse E (setDefaults opts) rs ids hid hcont fuel).1
        [] "" T [] v1 fs1 hso hleaf hsave fuel2 [] "" [] dt fs hw
    rw [← hload]
    exact hdt

/-- Witness for C1: a concrete two-leaf tree survives the save/load round
trip under the toy backend. -/
theorem c1_roundtrip_amended_witness :
    StringOnly (vMap [("private_x", vStr "secret"), ("user", vStr "alice")])
      = true ∧
    Result.Tree ⟨vMap [("private_x", vStr "secret"), ("user", vStr "alice")],
      [⟨["private_x"], true,
        beginMarker ++ "\n" ++ "secret" ++ "\n" ++ endMarker, "", [],
        false⟩]⟩ =
      vMap [("private_x", vStr "secret"), ("user", vStr "alice")] :=
  ⟨by decide,
   c1_roundtrip_amended extRound optsDefault [Recipient.x25519 "r"]
    [Identity.x25519 "i"]
    (vMap [("private_x", vStr "secret"), ("user", vStr "alice")])
    (vMap [("private_x",
      vStr (beginMarker ++ "\n" ++ "secret" ++ "\n" ++ endMarker)),
      ("user", vStr "alice")])
    9 9
    [⟨["private_x"], true,
      beginMarker ++ "\n" ++ "secret" ++ "\n" ++ endMarker, "", ["r"],
      false⟩]
    ⟨vMap [("private_x", vStr "secret"), ("user", vStr "alice")],
      [⟨["private_x"], true,
        beginMarker ++ "\n" ++ "secret" ++ "\n" ++ endMarker, "", [],
        false⟩]⟩
    (by decide) (by decide)
    (by
      intro t ht
      rw [show strLeaves (vMap [("private_x", vStr "secret"),
        ("user", vStr "alice")]) = ["secret", "alice"] from rfl] at ht
      simp at ht
      rcases ht with rfl | rfl
      · exact ⟨fun harm => by exact absurd harm (by decide), rfl,
          fun c hc => by
            cases hc
            exact ⟨by decide, rfl⟩⟩
      · exact ⟨fun harm => by exact absurd harm (by decide), rfl,
          fun c hc => by
            cases hc
            exact ⟨by decide, rfl⟩⟩)
    (by
      intro u hu j hj
      exact Option.noConfusion hj)
    rfl rfl⟩

/-- Claim C1, counterexample: the string-only tree with leaf "42" under a
policy-matching key does not round-trip — after save and load the leaf is
the integer 42, because `Load` JSON-decode-attempts every decrypted
payload. -/
theorem c1_counterexample :
    StringOnly (vMap [("private_x", vStr "42")]) = true ∧
    Walk (saveVisit extJson42 (setDefaults optsDefault)
        [Recipient.x25519 "r"]) 9 (vMap [("private_x", vStr "42")]) [] =
      some (vMap [("private_x", vStr wrap42)],
        [⟨["private_x"], true, wrap42, "", ["r"], false⟩]) ∧
    Load extJson42 (some (vMap [("private_x", vStr wrap42)]))
        (.ok [Identity.x25519 "i"]) 9 =
      some (.ok ⟨vMap [("private_x", vInt 42)],
        [⟨["private_x"], true, wrap42, "", [], false⟩]⟩) ∧
    vMap [("private_x", vInt 42)] ≠ vMap [("private_x", vStr "42")] := by
  refine ⟨by decide, by decide, rfl, by decide⟩

/-- Claim C9 as amended: for every tree that is a map whose (transitively
nested) map keys are non-empty and unique, every leaf enumerated during a
walk satisfies `GetValue T (path ++ [key]) = some leaf`.  (Unrestricted, the
claim fails: an empty-string map key is collapsed out of the walker's paths,
see the counterexample.) -/
theorem c9_path_roundtrip_amended (es : List (String × Val)) (fuel : Nat)
    (out : Val) (log : List (List String × String × Val))
    (hne : noEmptyKeys (vMap es) = true)
    (hu : mapKeysUnique (vMap es) = true)
    (hw : Walk recordVisit fuel (vMap es) [] = some (out, log))
    (p : List String) (k : String) (u : Val)
    (hmem : (p, k, u) ∈ log) (hsc : IsScalarValue u = true) :
    GetValue (vMap es) (p ++ [k]) = some u := by
  obtain ⟨_, hlog⟩ := (walk_recordVisit fuel).1 [] "" (vMap es) [] out log hw
  rw [hlog] at hmem
  simp only [List.nil_append] at hmem
  obtain ⟨rest, hpath, hget⟩ := visits_get (vMap es) [] "" hne hu
    (fun _ => by simp [IsScalarValue]) p k u hmem hsc
  simp only [ne_eq, not_true_eq_false, if_false, List.nil_append] at hpath
  rw [hpath]
  exact hget

/-- Witness for C9: the leaf "q1" is enumerated with path `["a"]` and key
`"[1]"`, and `GetValue` resolves that path back to it. -/
theorem c9_path_roundtrip_amended_witness :
    GetValue (vMap [("a", vArr [vStr "p0", vStr "q1"])]) (["a"] ++ ["[1]"]) =
      some (vStr "q1") :=
  c9_path_roundtrip_amended [("a", vArr [vStr "p0", vStr "q1"])] 20
    (vMap [("a", vArr [vStr "p0", vStr "q1"])])
    [([], "", vMap [("a", vArr [vStr "p0", vStr "q1"])]),
     ([], "a", vArr [vStr "p0", vStr "q1"]),
     (["a"], "[0]", vStr "p0"), (["a"], "[1]", vStr "q1")]
    (by decide) (by decide) (by decide) ["a"] "[1]" (vStr "q1")
    (by decide) (by decide)

/-- Claim C9, counterexample: the walk over a tree with an empty-string map
key enumerates the leaf "v" with path `[]` and key `"x"`, yet
`GetValue T ["x"]` fails — the enumerated path does not address the leaf. -/
theorem c9_counterexample :
    Walk recordVisit 9 (vMap [("", vMap [("x", vStr "v")])]) [] =
      some (vMap [("", vMap [("x", vStr "v")])],
        [(([] : List String), "", vMap [("", vMap [("x", vStr "v")])]),
         (([] : List String), "", vMap [("x", vStr "v")]),
         (([] : List String), "x", (vStr "v" : Val))]) ∧
    IsScalarValue (vStr "v") = true ∧
    GetValue (vMap [("", vMap [("x", vStr "v")])]) (([] : List String) ++ ["x"])
      = none := by
  refine ⟨by decide, by decide, by decide⟩

end Viola
